import Mathlib

/-!
Shallow embedding of the room-lottery core (`js/lottery.js`): room-number
parsing (`parseRoomNumber`), room grouping, the gender-constrained
allocation algorithm (`performLottery`) and the rolling-session state
machine (`init` / `startRolling` / `stopRolling` / `getCurrentData`).

Randomness: every `Math.random()` draw of the source is modelled by an
explicit stream parameter.  A Fisher-Yates shuffle over a list of length
`n` consumes draws `r (n-1), …, r 1`, the draw for index `i` being
`r i % (i+1)` (the source computes `Math.floor(Math.random() * (i + 1))`,
a uniform value in `[0, i]`).  The 50/50 pool choice for a shared group is
a boolean stream.  Theorems quantify over all streams, hence over every
possible run of the program.
-/

namespace Yaohao

/-- A data row `{ employeeId, gender, roomNumber }`.  The source uses the
same object shape for input entries and for produced assignments. -/
structure Entry where
  employeeId : String
  gender : String
  roomNumber : String
deriving Repr, DecidableEq

/-- An employee as held in the gender pools: `{ employeeId, gender }`. -/
structure Emp where
  employeeId : String
  gender : String
deriving Repr, DecidableEq

/-- Result of `parseRoomNumber`: `{ baseRoom, bedroom }`, `bedroom` being
`null` (here `none`) when no bedroom suffix is recognised. -/
structure RoomKey where
  baseRoom : String
  bedroom : Option String
deriving Repr, DecidableEq

/-- Splitting a character list on a separator character; faithful to
JavaScript `roomNumber.split(sep)` for a one-character separator
(`"".split(sep)` gives `[""]`, a trailing separator yields a final `""`). -/
def splitOnChar (sep : Char) : List Char → List (List Char)
  | [] => [[]]
  | c :: cs =>
    let rest := splitOnChar sep cs
    if c = sep then [] :: rest
    else
      match rest with
      | [] => [[c]]
      | p :: ps => (c :: p) :: ps

/-- Joining parts back with the separator, as `parts.slice(0, -1).join(sep)`
does in the source. -/
def joinWithChar (sep : Char) : List (List Char) → List Char
  | [] => []
  | [p] => p
  | p :: q :: ps => p ++ sep :: joinWithChar sep (q :: ps)

/-- The test `/^[A-Za-z]$/.test(lastPart)`: the string consists of exactly
one character and that character is an ASCII letter. -/
def isBedroomSuffix (s : List Char) : Bool :=
  match s with
  | [c] => c.isAlpha
  | _ => false

/-- Embedding of `parseRoomNumber(roomNumber)`: split on the fixed
delimiter, and if the final segment is a single ASCII letter and there are
more than four segments, strip it off as the bedroom tag. -/
def parseRoomNumber (roomNumber : String) : RoomKey :=
  let parts := splitOnChar (Char.ofNat 45) roomNumber.data
  let lastPart := parts.getLastD []
  if isBedroomSuffix lastPart && parts.length > 4 then
    { baseRoom := String.mk (joinWithChar (Char.ofNat 45) parts.dropLast),
      bedroom := some (String.mk lastPart) }
  else
    { baseRoom := roomNumber, bedroom := none }

/-- Swapping the elements at positions `i` and `j` of a list (both in
bounds; out-of-bounds indices leave the list unchanged — in the shuffle
below the indices are always in bounds). -/
def listSwap (l : List α) (i j : Nat) : List α :=
  match l[i]?, l[j]? with
  | some a, some b => (l.set i b).set j a
  | _, _ => l

/-- Countdown loop of the Fisher-Yates shuffle: at index `i+1` swap with a
uniformly drawn index `r (i+1) % (i+2)` in `[0, i+1]`. -/
def shuffleGo (r : Nat → Nat) : Nat → List α → List α
  | 0, l => l
  | i + 1, l => shuffleGo r i (listSwap l (i + 1) (r (i + 1) % (i + 2)))

/-- Embedding of `shuffleArray(array)` (Fisher-Yates): for `i` from
`array.length - 1` down to `1`, swap positions `i` and `j` where `j`
models `Math.floor(Math.random() * (i + 1))`. -/
def shuffleArray (r : Nat → Nat) (l : List α) : List α :=
  shuffleGo r (l.length - 1) l

theorem perm_cons_set {α : Type} (l : List α) (m : Nat) (a b : α)
    (hb : l[m]? = some b) : (b :: l.set m a).Perm (a :: l) := by
  induction l generalizing m with
  | nil => simp at hb
  | cons c cs ih =>
    cases m with
    | zero =>
      simp only [List.getElem?_cons_zero, Option.some.injEq] at hb
      subst hb
      simpa using List.Perm.swap a c cs
    | succ k =>
      simp only [List.getElem?_cons_succ] at hb
      have h1 := ih k hb
      have s1 : (b :: c :: cs.set k a).Perm (c :: b :: cs.set k a) :=
        List.Perm.swap c b _
      have s2 : (c :: b :: cs.set k a).Perm (c :: (a :: cs)) := h1.cons c
      have s3 : (c :: a :: cs).Perm (a :: c :: cs) := List.Perm.swap a c cs
      simpa using (s1.trans s2).trans s3

theorem swap_set_perm_lt {α : Type} (i : Nat) (j : Nat) (l : List α) (a b : α)
    (hij : i < j) (ha : l[i]? = some a) (hb : l[j]? = some b) :
    ((l.set i b).set j a).Perm l := by
  induction i generalizing l j with
  | zero =>
    cases l with
    | nil => simp at ha
    | cons c cs =>
      simp only [List.getElem?_cons_zero, Option.some.injEq] at ha
      subst ha
      obtain ⟨m, rfl⟩ : ∃ m, j = m + 1 := ⟨j - 1, by omega⟩
      simp only [List.getElem?_cons_succ] at hb
      simpa using perm_cons_set cs m c b hb
  | succ i ih =>
    cases l with
    | nil => simp at ha
    | cons c cs =>
      obtain ⟨m, rfl⟩ : ∃ m, j = m + 1 := ⟨j - 1, by omega⟩
      simp only [List.getElem?_cons_succ] at ha hb
      have h1 := ih m cs (by omega) ha hb
      simpa using h1.cons c

theorem set_of_getElem_eq {α : Type} (l : List α) (i : Nat) (a : α)
    (h : l[i]? = some a) : l.set i a = l := by
  induction l generalizing i with
  | nil => simp at h
  | cons c cs ih =>
    cases i with
    | zero =>
      simp only [List.getElem?_cons_zero, Option.some.injEq] at h
      simp [h]
    | succ k =>
      simp only [List.getElem?_cons_succ] at h
      simp [ih k h]

theorem listSwap_eq_some {α : Type} {l : List α} {i j : Nat} {a b : α}
    (h1 : l[i]? = some a) (h2 : l[j]? = some b) :
    listSwap l i j = (l.set i b).set j a := by
  unfold listSwap
  rw [h1, h2]

theorem listSwap_perm {α : Type} (l : List α) (i j : Nat) :
    (listSwap l i j).Perm l := by
  cases h1 : l[i]? with
  | none =>
    have he : listSwap l i j = l := by unfold listSwap; rw [h1]
    rw [he]
  | some a =>
    cases h2 : l[j]? with
    | none =>
      have he : listSwap l i j = l := by unfold listSwap; rw [h1, h2]
      rw [he]
    | some b =>
      rw [listSwap_eq_some h1 h2]
      rcases Nat.lt_trichotomy i j with h | h | h
      · exact swap_set_perm_lt i j l a b h h1 h2
      · subst h
        rw [h1] at h2
        cases h2
        rw [List.set_set, set_of_getElem_eq l i a h1]
      · have hcomm := List.set_comm b a (l := l) (Nat.ne_of_gt h)
        rw [hcomm]
        exact swap_set_perm_lt j i l b a h h2 h1

theorem shuffleGo_perm {α : Type} (r : Nat → Nat) (n : Nat) (l : List α) :
    (shuffleGo r n l).Perm l := by
  induction n generalizing l with
  | zero => exact List.Perm.refl l
  | succ i ih =>
    exact (ih _).trans (listSwap_perm l (i + 1) (r (i + 1) % (i + 2)))

theorem shuffleArray_perm {α : Type} (r : Nat → Nat) (l : List α) :
    (shuffleArray r l).Perm l :=
  shuffleGo_perm r (l.length - 1) l

theorem shuffleArray_length {α : Type} (r : Nat → Nat) (l : List α) :
    (shuffleArray r l).length = l.length :=
  (shuffleArray_perm r l).length_eq

/-- One slot record pushed into a room-group bucket:
`{ fullRoom: room, bedroom: parsed.bedroom, originalIndex: index }`. -/
structure SlotInfo where
  fullRoom : String
  bedroom : Option String
  originalIndex : Nat
deriving Repr, DecidableEq

/-- Appending a slot to the bucket of its base room (creating the bucket at
the end if absent), as the `roomGroups` object accumulation does. -/
def addToGroups : List (String × List SlotInfo) → String → SlotInfo →
    List (String × List SlotInfo)
  | [], key, s => [(key, [s])]
  | (k, l) :: rest, key, s =>
    if k = key then (k, l ++ [s]) :: rest
    else (k, l) :: addToGroups rest key s

/-- Embedding of the `roomGroups` accumulation: bucket each room label
(with its index in the input) under its parsed `baseRoom`.  Buckets are
kept in first-seen key order; the source keeps them in a JavaScript object
whose enumeration order is only relevant up to the shuffles applied later,
which the theorems quantify over. -/
def buildRoomGroups (rooms : List String) : List (String × List SlotInfo) :=
  rooms.enum.foldl
    (fun gs p =>
      let parsed := parseRoomNumber p.2
      addToGroups gs parsed.baseRoom ⟨p.2, parsed.bedroom, p.1⟩)
    []

/-- Embedding of the shared/single separation: buckets with at least two
slots become shared room groups, the remaining buckets contribute their
head slot (`roomList[0]`) to the single rooms. -/
def splitRooms : List (String × List SlotInfo) → List (List SlotInfo) × List SlotInfo
  | [] => ([], [])
  | (_, l) :: rest =>
    let p := splitRooms rest
    if 2 ≤ l.length then (l :: p.1, p.2)
    else
      match l with
      | [] => p
      | s :: _ => (p.1, s :: p.2)

/-- Assigning the slots of one shared group from the front of the selected
pool (`selectedPool.shift()` per slot).  Under the guard of the caller the
pool always has at least as many members as the group has slots; an empty
pool stops assigning, mirroring that the source never reaches that case. -/
def assignGroup : List Emp → List SlotInfo → List (Option Entry) →
    List Emp × List (Option Entry)
  | pool, [], res => (pool, res)
  | [], _ :: _, res => ([], res)
  | e :: pool, s :: grp, res =>
    assignGroup pool grp
      (res.set s.originalIndex (some ⟨e.employeeId, e.gender, s.fullRoom⟩))

/-- State threaded through the shared-room loop: the two gender pools, the
result array, the `unassignedSharedRooms` overflow list and the index of
the next 50/50 coin. -/
structure SharedState where
  male : List Emp
  female : List Emp
  result : List (Option Entry)
  overflow : List SlotInfo
  t : Nat
deriving Repr, DecidableEq

/-- Embedding of the shared-room loop: each group is filled from a single
pool chosen by the strict availability rules, or moved wholly into the
overflow list when neither pool has enough members. -/
def processShared (coin : Nat → Bool) : List (List SlotInfo) → SharedState → SharedState
  | [], st => st
  | g :: gs, st =>
    if g.length ≤ st.male.length then
      if g.length ≤ st.female.length then
        if coin st.t then
          processShared coin gs ⟨(assignGroup st.male g st.result).1, st.female,
            (assignGroup st.male g st.result).2, st.overflow, st.t + 1⟩
        else
          processShared coin gs ⟨st.male, (assignGroup st.female g st.result).1,
            (assignGroup st.female g st.result).2, st.overflow, st.t + 1⟩
      else
        processShared coin gs ⟨(assignGroup st.male g st.result).1, st.female,
          (assignGroup st.male g st.result).2, st.overflow, st.t⟩
    else
      if g.length ≤ st.female.length then
        processShared coin gs ⟨st.male, (assignGroup st.female g st.result).1,
          (assignGroup st.female g st.result).2, st.overflow, st.t⟩
      else
        processShared coin gs ⟨st.male, st.female, st.result, st.overflow ++ g, st.t⟩

/-- Embedding of the single-room loop: walk the combined single slots and
assign one remaining employee per slot while any remain; slots reached
after exhaustion stay unassigned. -/
def processSingles : List SlotInfo → List Emp → List (Option Entry) →
    List (Option Entry)
  | [], _, res => res
  | _ :: ss, [], res => processSingles ss [] res
  | s :: ss, e :: es, res =>
    processSingles ss es
      (res.set s.originalIndex (some ⟨e.employeeId, e.gender, s.fullRoom⟩))

/-- Random source of one lottery run: one draw stream per shuffle call site
(male pool, female pool, shared groups, remaining employees, combined
single slots, final display order) and the 50/50 coin stream. -/
structure Rand where
  rm : Nat → Nat
  rf : Nat → Nat
  rs : Nat → Nat
  rr : Nat → Nat
  ra : Nat → Nat
  rd : Nat → Nat
  coin : Nat → Bool

/-- Fixed random source used to evaluate concrete runs (every draw is 0,
every coin is false). -/
def rand0 : Rand := ⟨fun _ => 0, fun _ => 0, fun _ => 0, fun _ => 0,
  fun _ => 0, fun _ => 0, fun _ => false⟩

/-- Projection of a data row to its employee part, as the source's
`data.map(d => ({ employeeId: d.employeeId, gender: d.gender }))`. -/
def empOf (d : Entry) : Emp := ⟨d.employeeId, d.gender⟩

/-- Partition of the employees into the two gender pools, in input order:
`employees.filter(e => e.gender === '男')` and the same for `'女'`. -/
def genderPools (data : List Entry) : List Emp × List Emp :=
  ((data.map empOf).filter (fun e => e.gender == "男"),
   (data.map empOf).filter (fun e => e.gender == "女"))

/-- Shared-room phase of `performLottery`: build and split the room groups,
shuffle the pools and the shared groups, and run the shared-room loop on a
result array of `data.length` empty cells.  Returns the loop's final state
together with the single-room slot list. -/
def sharedPhase (rnd : Rand) (data : List Entry) : SharedState × List SlotInfo :=
  (processShared rnd.coin
     (shuffleArray rnd.rs (splitRooms (buildRoomGroups (data.map Entry.roomNumber))).1)
     ⟨shuffleArray rnd.rm (genderPools data).1,
      shuffleArray rnd.rf (genderPools data).2,
      List.replicate data.length none, [], 0⟩,
   (splitRooms (buildRoomGroups (data.map Entry.roomNumber))).2)

/-- Merged leftover of the two pools after the shared-room phase, shuffled
(`remainingEmployees`). -/
def remainingPool (rnd : Rand) (data : List Entry) : List Emp :=
  shuffleArray rnd.rr ((sharedPhase rnd data).1.male ++ (sharedPhase rnd data).1.female)

/-- Single slots plus overflow slots, shuffled (`allSingleRooms`). -/
def allSingleSlots (rnd : Rand) (data : List Entry) : List SlotInfo :=
  shuffleArray rnd.ra ((sharedPhase rnd data).2 ++ (sharedPhase rnd data).1.overflow)

/-- Embedding of `performLottery()`: after the shared-room phase, merge the
leftover pools into the shuffled remainder, append the overflow slots to
the single slots, run the single-room loop, drop the unassigned cells and
shuffle the final display order. -/
def performLottery (rnd : Rand) (data : List Entry) : List Entry :=
  shuffleArray rnd.rd
    ((processSingles (allSingleSlots rnd data) (remainingPool rnd data)
        (sharedPhase rnd data).1.result).filterMap id)

theorem isBedroomSuffix_iff (l : List Char) :
    isBedroomSuffix l = true ↔ l.length = 1 ∧ ∀ c ∈ l, c.isAlpha := by
  match l with
  | [] => simp [isBedroomSuffix]
  | [c] => simp [isBedroomSuffix]
  | c1 :: c2 :: cs => simp [isBedroomSuffix]

theorem processShared_overflow_extend (coin : Nat → Bool)
    (gs : List (List SlotInfo)) (st : SharedState) :
    ∃ extra, (processShared coin gs st).overflow = st.overflow ++ extra := by
  induction gs generalizing st with
  | nil => exact ⟨[], by simp [processShared]⟩
  | cons g gs ih =>
    simp only [processShared]
    split
    · split
      · split
        · exact ih _
        · exact ih _
      · exact ih _
    · split
      · exact ih _
      · obtain ⟨extra, hx⟩ := ih ⟨st.male, st.female, st.result, st.overflow ++ g, st.t⟩
        exact ⟨g ++ extra, by simpa [List.append_assoc] using hx⟩

theorem mem_processShared_overflow (coin : Nat → Bool)
    (gs : List (List SlotInfo)) (st : SharedState) (s : SlotInfo)
    (h : s ∈ st.overflow) : s ∈ (processShared coin gs st).overflow := by
  obtain ⟨extra, hx⟩ := processShared_overflow_extend coin gs st
  rw [hx]
  exact List.mem_append_left extra h

/-- Segment list of a room label under the fixed delimiter, for stating
the parser contract independently of `parseRoomNumber`. -/
def dashParts (s : String) : List (List Char) :=
  splitOnChar (Char.ofNat 45) s.data

/-- C6: `parseRoomNumber` splits the label on the fixed delimiter and
strips the final segment off as the sub-unit exactly when that segment is
a single letter and there are more than four segments, rejoining the rest
as the base room; otherwise the base room is the whole label and there is
no sub-unit.  The function is total (defined for every string), and the
three spec examples evaluate as stated. -/
theorem claim_C6_parse_contract (s : String) :
    ((4 < (dashParts s).length ∧ ((dashParts s).getLastD []).length = 1 ∧
        ∀ c ∈ (dashParts s).getLastD [], c.isAlpha) →
      parseRoomNumber s =
        ⟨String.mk (joinWithChar (Char.ofNat 45) (dashParts s).dropLast),
         some (String.mk ((dashParts s).getLastD []))⟩) ∧
    (¬ (4 < (dashParts s).length ∧ ((dashParts s).getLastD []).length = 1 ∧
        ∀ c ∈ (dashParts s).getLastD [], c.isAlpha) →
      parseRoomNumber s = ⟨s, none⟩) ∧
    parseRoomNumber ("南-16-1-1001-A") = ⟨"南-16-1-1001", some ("A")⟩ ∧
    parseRoomNumber ("南-16-1-1001") = ⟨"南-16-1-1001", none⟩ ∧
    parseRoomNumber ("R2") = ⟨"R2", none⟩ := by
  refine ⟨?_, ?_, by decide, by decide, by decide⟩
  · intro h
    have hb : isBedroomSuffix ((dashParts s).getLastD []) = true :=
      (isBedroomSuffix_iff _).2 ⟨h.2.1, h.2.2⟩
    simp [parseRoomNumber, dashParts] at hb ⊢
    exact ⟨hb, by simpa [dashParts] using h.1⟩
  · intro h
    simp [parseRoomNumber, dashParts] at h ⊢
    intro hbs
    have hb := (isBedroomSuffix_iff _).1 (by simpa [dashParts] using hbs)
    by_contra hlen
    obtain ⟨x, hx, hxf⟩ := h (by omega) (by simpa [dashParts] using hb.1)
    have hxa := hb.2 x (by simpa [dashParts] using hx)
    simp [hxa] at hxf

/-- Closed instance of the C6 contract: the positive branch applied at the
first spec example, each hypothesis discharged by computation. -/
theorem claim_C6_parse_contract_witness :
    parseRoomNumber ("南-16-1-1001-A") = ⟨"南-16-1-1001", some ("A")⟩ :=
  (claim_C6_parse_contract ("南-16-1-1001-A")).2.2.1

/-- C1: when a shared group reaches the front of the shared-room loop and
neither pool has as many remaining members as the group has slots, the
loop continues with both pools and the result array untouched and with
every slot of the group appended to the overflow list, and the group's
slots all belong to the final overflow list of the loop (which the
single-slot step then processes). -/
theorem claim_C1_shared_shortfall (coin : Nat → Bool) (g : List SlotInfo)
    (gs : List (List SlotInfo)) (st : SharedState)
    (hm : st.male.length < g.length) (hf : st.female.length < g.length) :
    processShared coin (g :: gs) st =
      processShared coin gs ⟨st.male, st.female, st.result, st.overflow ++ g, st.t⟩ ∧
    ∀ s ∈ g, s ∈ (processShared coin (g :: gs) st).overflow := by
  have hstep : processShared coin (g :: gs) st =
      processShared coin gs ⟨st.male, st.female, st.result, st.overflow ++ g, st.t⟩ := by
    simp only [processShared]
    rw [if_neg (by omega), if_neg (by omega)]
  refine ⟨hstep, ?_⟩
  intro s hs
  rw [hstep]
  exact mem_processShared_overflow _ _ _ _ (List.mem_append_right _ hs)

/-- Closed instance of C1: a two-slot group with both pools empty is moved
wholly into overflow without touching the pools. -/
theorem claim_C1_shared_shortfall_witness :
    (processShared (fun _ => false) [[⟨"A", none, 0⟩, ⟨"B", none, 1⟩]]
        ⟨[], [], [none, none], [], 0⟩ =
      processShared (fun _ => false) []
        ⟨[], [], [none, none], [] ++ [⟨"A", none, 0⟩, ⟨"B", none, 1⟩], 0⟩) ∧
    ∀ s ∈ [(⟨"A", none, 0⟩ : SlotInfo), ⟨"B", none, 1⟩],
      s ∈ (processShared (fun _ => false) [[⟨"A", none, 0⟩, ⟨"B", none, 1⟩]]
        ⟨[], [], [none, none], [], 0⟩).overflow :=
  claim_C1_shared_shortfall (fun _ => false) [⟨"A", none, 0⟩, ⟨"B", none, 1⟩] []
    ⟨[], [], [none, none], [], 0⟩ (by decide) (by decide)

/-- Session fields of the module object: original snapshot, current
display snapshot, rolling flag and the stored interval handle. -/
structure Session where
  originalData : List Entry
  currentData : List Entry
  isRolling : Bool
  rollInterval : Option Nat
deriving Repr, DecidableEq

/-- A live repeating timer: its handle and the data captured by the tick
callback closure (`const data = this.originalData` at `startRolling`
time). -/
structure Timer where
  id : Nat
  captured : List Entry
deriving Repr, DecidableEq

/-- The module state together with the scheduler state: which interval
timers are currently live, and the next fresh handle. -/
structure World where
  sess : Session
  timers : List Timer
  nextId : Nat
deriving Repr, DecidableEq

/-- Initial state: empty snapshots, not rolling, no stored handle, no live
timers. -/
def World.empty : World := ⟨⟨[], [], false, none⟩, [], 0⟩

/-- Embedding of `init(data)`: replace both snapshots by (deep copies of)
`data` and clear the rolling flag.  The source does not touch the stored
interval handle and does not cancel any live timer. -/
def LotteryModule.init (w : World) (data : List Entry) : World :=
  { w with sess := ⟨data, data, false, w.sess.rollInterval⟩ }

/-- Embedding of `startRolling(updateCallback)`: a no-op while rolling;
otherwise set the rolling flag and schedule a fresh repeating timer whose
callback captures the current original snapshot. -/
def LotteryModule.startRolling (w : World) : World :=
  if w.sess.isRolling then w
  else
    ⟨{ w.sess with isRolling := true, rollInterval := some w.nextId },
     w.timers ++ [⟨w.nextId, w.sess.originalData⟩],
     w.nextId + 1⟩

/-- Display row sequence produced by one preview tick: for each index an
independently random employee (id and gender) and an independently random
room label, both drawn from the captured data. -/
def randomDisplay (data : List Entry) (re rr : Nat → Nat) : List Entry :=
  (List.range data.length).map (fun i =>
    let a := data.getD (re i % data.length) ⟨"", "", ""⟩
    let b := data.getD (rr i % data.length) ⟨"", "", ""⟩
    ⟨a.employeeId, a.gender, b.roomNumber⟩)

/-- One tick of the interval with handle `tid`: if that timer is live its
callback runs and receives the random display built from its captured
data; otherwise no callback runs. -/
def tick (w : World) (tid : Nat) (re rr : Nat → Nat) : Option (List Entry) :=
  (w.timers.find? (fun tmr => tmr.id == tid)).map
    (fun tmr => randomDisplay tmr.captured re rr)

/-- Embedding of `stopRolling(updateCallback)`: while not rolling, return
the current snapshot unchanged; otherwise clear the rolling flag, cancel
the stored interval, run `performLottery` once on the original snapshot,
store the result as the current snapshot and hand it to the callback
(modelled by the returned list). -/
def LotteryModule.stopRolling (w : World) (rnd : Rand) : World × List Entry :=
  if w.sess.isRolling = false then (w, w.sess.currentData)
  else
    let sess1 : Session := { w.sess with isRolling := false }
    let w1 : World :=
      match w.sess.rollInterval with
      | some tid =>
        ⟨{ sess1 with rollInterval := none },
         w.timers.filter (fun tmr => tmr.id != tid), w.nextId⟩
      | none => ⟨sess1, w.timers, w.nextId⟩
    let result := performLottery rnd w1.sess.originalData
    (⟨{ w1.sess with currentData := result }, w1.timers, w1.nextId⟩, result)

/-- Embedding of `getCurrentData()`. -/
def LotteryModule.getCurrentData (w : World) : List Entry :=
  w.sess.currentData

/-- Public operations whose sequencing the frame claims quantify over. -/
inductive SessionOp where
  | start : SessionOp
  | stop : Rand → SessionOp
  | getCurrent : SessionOp

/-- State effect of one public operation (`getCurrentData` reads only). -/
def applyOp (w : World) : SessionOp → World
  | SessionOp.start => LotteryModule.startRolling w
  | SessionOp.stop rnd => (LotteryModule.stopRolling w rnd).1
  | SessionOp.getCurrent => w

theorem applyOp_originalData (w : World) (op : SessionOp) :
    (applyOp w op).sess.originalData = w.sess.originalData := by
  cases op with
  | start =>
    simp only [applyOp, LotteryModule.startRolling]
    split <;> rfl
  | stop rnd =>
    simp only [applyOp, LotteryModule.stopRolling]
    split
    · rfl
    · cases w.sess.rollInterval <;> rfl
  | getCurrent => rfl

theorem foldl_applyOp_originalData (ops : List SessionOp) (w : World) :
    (ops.foldl applyOp w).sess.originalData = w.sess.originalData := by
  induction ops generalizing w with
  | nil => rfl
  | cons op ops ih => rw [List.foldl_cons, ih, applyOp_originalData]

/-- Counterexample to C7: starting a roll and then calling `init` leaves
the scheduled interval live — the next tick still invokes the rolling
callback (with the freshly stored data, since the closure captured the
same snapshot).  `init` clears the rolling flag but never cancels the
timer, so ticks keep firing before any new `startRolling`. -/
theorem claim_C7_counterexample :
    tick
      (LotteryModule.init
        (LotteryModule.startRolling
          (LotteryModule.init World.empty [⟨"E1", "男", "R1"⟩]))
        [⟨"E1", "男", "R1"⟩])
      0 (fun _ => 0) (fun _ => 0) = some [⟨"E1", "男", "R1"⟩] := by
  decide

/-- Amended C7: calling `init(entries)` in any state stores `entries` as
both the original and the current snapshot and clears the rolling flag,
but does not cancel an active roll: the set of live timers is unchanged,
so every tick observable before the call is still observable after it. -/
theorem claim_C7_amended_init (w : World) (data : List Entry) :
    (LotteryModule.init w data).sess.originalData = data ∧
    (LotteryModule.init w data).sess.currentData = data ∧
    (LotteryModule.init w data).sess.isRolling = false ∧
    (LotteryModule.init w data).timers = w.timers ∧
    ∀ tid re rr, tick (LotteryModule.init w data) tid re rr = tick w tid re rr :=
  ⟨rfl, rfl, rfl, rfl, fun _ _ _ => rfl⟩

/-- C8: invalid call sequences are idempotent no-ops — `stopRolling`
while not rolling returns the current snapshot with the state unchanged,
two consecutive `stopRolling` calls return the same snapshot, and
`startRolling` while already rolling changes nothing (no second timer). -/
theorem claim_C8_idempotent_noops (w : World) (rnd1 rnd2 : Rand) :
    (w.sess.isRolling = false →
      LotteryModule.stopRolling w rnd1 = (w, w.sess.currentData)) ∧
    ((LotteryModule.stopRolling (LotteryModule.stopRolling w rnd1).1 rnd2).2 =
      (LotteryModule.stopRolling w rnd1).2) ∧
    (w.sess.isRolling = true → LotteryModule.startRolling w = w) := by
  refine ⟨?_, ?_, ?_⟩
  · intro h
    simp [LotteryModule.stopRolling, h]
  · cases hb : w.sess.isRolling with
    | false => simp [LotteryModule.stopRolling, hb]
    | true =>
      cases hri : w.sess.rollInterval <;>
        simp [LotteryModule.stopRolling, hb, hri]
  · intro h
    simp [LotteryModule.startRolling, h]

/-- Closed instance of C8: a double stop on the empty (non-rolling) state
returns the stored snapshot unchanged, and a `startRolling` on a rolling
state is the identity. -/
theorem claim_C8_idempotent_noops_witness :
    (LotteryModule.stopRolling World.empty rand0 =
      (World.empty, World.empty.sess.currentData)) ∧
    LotteryModule.startRolling
        (LotteryModule.startRolling
          (LotteryModule.init World.empty [⟨"E1", "男", "R1"⟩])) =
      LotteryModule.startRolling
        (LotteryModule.init World.empty [⟨"E1", "男", "R1"⟩]) :=
  ⟨(claim_C8_idempotent_noops World.empty rand0 rand0).1 (by decide),
   (claim_C8_idempotent_noops
      (LotteryModule.startRolling
        (LotteryModule.init World.empty [⟨"E1", "男", "R1"⟩]))
      rand0 rand0).2.2 (by decide)⟩

/-- C9: the original snapshot stored by `init` is never mutated by any
subsequent sequence of `startRolling`, `stopRolling` and `getCurrentData`
calls — after any such sequence it is still exactly the entries passed to
`init` (the allocation inside `stopRolling` reads it purely and writes
only the current snapshot). -/
theorem claim_C9_original_immutable (ops : List SessionOp) (w : World)
    (entries : List Entry) :
    (ops.foldl applyOp (LotteryModule.init w entries)).sess.originalData =
      entries := by
  rw [foldl_applyOp_originalData]
  rfl

/-- Multiset of the entries currently written into the result array. -/
def entriesOf (res : List (Option Entry)) : Multiset Entry :=
  ((res.filterMap id : List Entry) : Multiset Entry)

/-- Multiset of the employee parts currently written into the result. -/
def empsOf (res : List (Option Entry)) : Multiset Emp :=
  (entriesOf res).map empOf

@[simp] theorem entriesOf_nil : entriesOf [] = 0 := rfl

@[simp] theorem entriesOf_cons_none (res : List (Option Entry)) :
    entriesOf (none :: res) = entriesOf res := rfl

@[simp] theorem entriesOf_cons_some (a : Entry) (res : List (Option Entry)) :
    entriesOf (some a :: res) = a ::ₘ entriesOf res := rfl

theorem entriesOf_le_cons (o : Option Entry) (res : List (Option Entry)) :
    entriesOf res ≤ entriesOf (o :: res) := by
  cases o with
  | none => exact le_refl _
  | some b => simpa using Multiset.le_cons_self (entriesOf res) b

theorem entriesOf_set_le (res : List (Option Entry)) (i : Nat) (a : Entry) :
    entriesOf (res.set i (some a)) ≤ a ::ₘ entriesOf res := by
  induction res generalizing i with
  | nil => simp
  | cons o os ih =>
    cases i with
    | zero =>
      simp only [List.set_cons_zero, entriesOf_cons_some]
      exact Multiset.cons_le_cons a (entriesOf_le_cons o os)
    | succ k =>
      simp only [List.set_cons_succ]
      cases o with
      | none => simpa using ih k
      | some b =>
        simp only [entriesOf_cons_some]
        have h1 : b ::ₘ entriesOf (os.set k (some a)) ≤ b ::ₘ a ::ₘ entriesOf os :=
          Multiset.cons_le_cons b (ih k)
        simpa [Multiset.cons_swap] using h1

theorem empsOf_set_le (res : List (Option Entry)) (i : Nat) (a : Entry) :
    empsOf (res.set i (some a)) ≤ empOf a ::ₘ empsOf res := by
  simpa [empsOf] using Multiset.map_le_map (f := empOf) (entriesOf_set_le res i a)

theorem assignGroup_emps_le (g : List SlotInfo) (pool : List Emp)
    (res : List (Option Entry)) :
    empsOf (assignGroup pool g res).2 + ↑(assignGroup pool g res).1 ≤
      empsOf res + ↑pool := by
  induction g generalizing pool res with
  | nil => simp [assignGroup]
  | cons s grp ih =>
    cases pool with
    | nil => simp [assignGroup]
    | cons e pool =>
      simp only [assignGroup]
      have h1 := ih pool (res.set s.originalIndex
        (some ⟨e.employeeId, e.gender, s.fullRoom⟩))
      have h2 : empsOf (res.set s.originalIndex
          (some ⟨e.employeeId, e.gender, s.fullRoom⟩)) ≤ e ::ₘ empsOf res := by
        have h3 := empsOf_set_le res s.originalIndex
          ⟨e.employeeId, e.gender, s.fullRoom⟩
        simpa [empOf] using h3
      refine h1.trans ?_
      have h4 := add_le_add_right h2 (↑pool : Multiset Emp)
      refine h4.trans (le_of_eq ?_)
      rw [Multiset.cons_add]
      simp [← Multiset.cons_coe, Multiset.add_cons]

/-- Combined employee content of the loop state: written entries plus both
pools.  The shared-room loop never increases it. -/
def poolsMeasure (st : SharedState) : Multiset Emp :=
  empsOf st.result + ↑st.male + ↑st.female

theorem processShared_emps_le (coin : Nat → Bool) (gs : List (List SlotInfo))
    (st : SharedState) :
    poolsMeasure (processShared coin gs st) ≤ poolsMeasure st := by
  induction gs generalizing st with
  | nil => exact le_refl _
  | cons g gs ih =>
    simp only [processShared]
    split
    · split
      · split
        · refine (ih _).trans ?_
          have h := assignGroup_emps_le g st.male st.result
          exact add_le_add_right h (↑st.female : Multiset Emp)
        · refine (ih _).trans ?_
          have h := assignGroup_emps_le g st.female st.result
          show empsOf (assignGroup st.female g st.result).2 + ↑st.male +
              ↑(assignGroup st.female g st.result).1 ≤
            empsOf st.result + ↑st.male + ↑st.female
          rw [add_right_comm]
          rw [add_right_comm (empsOf st.result) (↑st.male) (↑st.female)]
          exact add_le_add_right h (↑st.male : Multiset Emp)
      · refine (ih _).trans ?_
        have h := assignGroup_emps_le g st.male st.result
        exact add_le_add_right h (↑st.female : Multiset Emp)
    · split
      · refine (ih _).trans ?_
        have h := assignGroup_emps_le g st.female st.result
        show empsOf (assignGroup st.female g st.result).2 + ↑st.male +
            ↑(assignGroup st.female g st.result).1 ≤
          empsOf st.result + ↑st.male + ↑st.female
        rw [add_right_comm]
        rw [add_right_comm (empsOf st.result) (↑st.male) (↑st.female)]
        exact add_le_add_right h (↑st.male : Multiset Emp)
      · exact ih _

theorem processSingles_emps_le (ss : List SlotInfo) (pool : List Emp)
    (res : List (Option Entry)) :
    empsOf (processSingles ss pool res) ≤ empsOf res + ↑pool := by
  induction ss generalizing pool res with
  | nil => simp only [processSingles]; exact Multiset.le_add_right (empsOf res) ↑pool
  | cons s ss ih =>
    cases pool with
    | nil => simpa [processSingles] using ih [] res
    | cons e pool =>
      simp only [processSingles]
      have h1 := ih pool (res.set s.originalIndex
        (some ⟨e.employeeId, e.gender, s.fullRoom⟩))
      have h2 : empsOf (res.set s.originalIndex
          (some ⟨e.employeeId, e.gender, s.fullRoom⟩)) ≤ e ::ₘ empsOf res := by
        have h3 := empsOf_set_le res s.originalIndex
          ⟨e.employeeId, e.gender, s.fullRoom⟩
        simpa [empOf] using h3
      refine h1.trans ?_
      have h4 := add_le_add_right h2 (↑pool : Multiset Emp)
      refine h4.trans (le_of_eq ?_)
      rw [Multiset.cons_add]
      simp [← Multiset.cons_coe, Multiset.add_cons]

theorem replicate_none_filterMap (n : Nat) :
    (List.replicate n (none : Option Entry)).filterMap id = [] := by
  induction n with
  | zero => rfl
  | succ k ih => simp only [List.replicate_succ, List.filterMap_cons]; exact ih

theorem performLottery_emps_le (rnd : Rand) (data : List Entry) :
    (↑((performLottery rnd data).map empOf) : Multiset Emp) ≤
      ↑(genderPools data).1 + ↑(genderPools data).2 := by
  have hperm : ((performLottery rnd data).map empOf).Perm
      (((processSingles (allSingleSlots rnd data) (remainingPool rnd data)
        (sharedPhase rnd data).1.result).filterMap id).map empOf) :=
    (shuffleArray_perm rnd.rd _).map empOf
  rw [Multiset.coe_eq_coe.2 hperm]
  have h1 : (↑(((processSingles (allSingleSlots rnd data) (remainingPool rnd data)
      (sharedPhase rnd data).1.result).filterMap id).map empOf) : Multiset Emp) =
      empsOf (processSingles (allSingleSlots rnd data) (remainingPool rnd data)
        (sharedPhase rnd data).1.result) := by
    simp [empsOf, entriesOf]
  rw [h1]
  refine (processSingles_emps_le _ _ _).trans ?_
  have h2 : (↑(remainingPool rnd data) : Multiset Emp) =
      ↑(sharedPhase rnd data).1.male + ↑(sharedPhase rnd data).1.female := by
    unfold remainingPool
    rw [Multiset.coe_eq_coe.2 (shuffleArray_perm rnd.rr _)]
    simp
  rw [h2, ← add_assoc]
  have h3 : empsOf (sharedPhase rnd data).1.result +
      ↑(sharedPhase rnd data).1.male + ↑(sharedPhase rnd data).1.female ≤
      poolsMeasure ⟨shuffleArray rnd.rm (genderPools data).1,
        shuffleArray rnd.rf (genderPools data).2,
        List.replicate data.length none, [], 0⟩ := by
    exact processShared_emps_le rnd.coin _ _
  refine h3.trans (le_of_eq ?_)
  show empsOf (List.replicate data.length none) +
      ↑(shuffleArray rnd.rm (genderPools data).1) +
      ↑(shuffleArray rnd.rf (genderPools data).2) = _
  rw [Multiset.coe_eq_coe.2 (shuffleArray_perm rnd.rm (genderPools data).1),
      Multiset.coe_eq_coe.2 (shuffleArray_perm rnd.rf (genderPools data).2)]
  simp [empsOf, entriesOf, replicate_none_filterMap]

theorem filter_pair_le (l : List Emp) (p q : Emp → Bool)
    (h : ∀ x, ¬(p x = true ∧ q x = true)) :
    (↑(l.filter p) + ↑(l.filter q) : Multiset Emp) ≤ ↑l := by
  induction l with
  | nil => simp
  | cons e l ih =>
    rw [← Multiset.cons_coe]
    cases hp : p e with
    | false =>
      rw [List.filter_cons_of_neg (by simp [hp])]
      cases hq : q e with
      | false =>
        rw [List.filter_cons_of_neg (by simp [hq])]
        exact ih.trans (Multiset.le_cons_self _ e)
      | true =>
        rw [List.filter_cons_of_pos hq, ← Multiset.cons_coe, Multiset.add_cons]
        exact Multiset.cons_le_cons e ih
    | true =>
      have hq : q e = false := by
        cases hq2 : q e with
        | false => rfl
        | true => exact absurd ⟨hp, hq2⟩ (h e)
      rw [List.filter_cons_of_pos hp, List.filter_cons_of_neg (by simp [hq]),
        ← Multiset.cons_coe, Multiset.cons_add]
      exact Multiset.cons_le_cons e ih

theorem map_empOf_employeeId (l : List Entry) :
    (l.map empOf).map Emp.employeeId = l.map Entry.employeeId := by
  rw [List.map_map]
  exact List.map_congr_left (fun d _ => rfl)

theorem performLottery_ids_le (rnd : Rand) (data : List Entry) :
    (↑((performLottery rnd data).map Entry.employeeId) : Multiset String) ≤
      ↑(data.map Entry.employeeId) := by
  have h1 := Multiset.map_le_map (f := Emp.employeeId)
    (performLottery_emps_le rnd data)
  have h2 : ∀ x : Emp,
      ¬((x.gender == "男") = true ∧ (x.gender == "女") = true) := by
    intro x hx
    have ha : x.gender = "男" := by simpa using hx.1
    have hb : x.gender = "女" := by simpa using hx.2
    rw [ha] at hb
    exact absurd hb (by decide)
  have h3 := Multiset.map_le_map (f := Emp.employeeId)
    (filter_pair_le (data.map empOf) (fun e => e.gender == "男")
      (fun e => e.gender == "女") h2)
  have h4 : Multiset.map Emp.employeeId
      (↑((performLottery rnd data).map empOf) : Multiset Emp) =
      (↑(((performLottery rnd data).map empOf).map Emp.employeeId) :
        Multiset String) := rfl
  rw [h4, map_empOf_employeeId] at h1
  refine h1.trans ?_
  have h5 : Multiset.map Emp.employeeId
      (↑(genderPools data).1 + ↑(genderPools data).2 : Multiset Emp) =
      Multiset.map Emp.employeeId
        (↑((data.map empOf).filter (fun e => e.gender == "男"))) +
      Multiset.map Emp.employeeId
        (↑((data.map empOf).filter (fun e => e.gender == "女"))) := by
    rw [Multiset.map_add]
    rfl
  rw [h5, ← Multiset.map_add]
  have h6 : Multiset.map Emp.employeeId (↑(data.map empOf) : Multiset Emp) =
      (↑((data.map empOf).map Emp.employeeId) : Multiset String) := rfl
  rw [h6, map_empOf_employeeId] at h3
  exact h3

/-- C3: assuming the input contract (duplicate employee ids already
removed), every employee id appearing in the lottery result appears in the
input entries, and appears at most once in the result. -/
theorem claim_C3_employee_ids (rnd : Rand) (data : List Entry)
    (h : (data.map Entry.employeeId).Nodup) :
    (∀ a ∈ performLottery rnd data, a.employeeId ∈ data.map Entry.employeeId) ∧
    ((performLottery rnd data).map Entry.employeeId).Nodup := by
  have hle := performLottery_ids_le rnd data
  constructor
  · intro a ha
    have h1 : a.employeeId ∈ (performLottery rnd data).map Entry.employeeId :=
      List.mem_map_of_mem Entry.employeeId ha
    have h2 : a.employeeId ∈
        (↑((performLottery rnd data).map Entry.employeeId) : Multiset String) := by
      simpa using h1
    simpa using Multiset.mem_of_le hle h2
  · have h3 : (↑(data.map Entry.employeeId) : Multiset String).Nodup := by
      simpa using h
    have h4 := Multiset.nodup_of_le hle h3
    simpa using h4

/-- Closed instance of C3 on a concrete two-entry input. -/
theorem claim_C3_employee_ids_witness :
    (∀ a ∈ performLottery rand0 [⟨"E1", "男", "R1"⟩, ⟨"E2", "女", "R2"⟩],
      a.employeeId ∈
        [⟨"E1", "男", "R1"⟩, (⟨"E2", "女", "R2"⟩ : Entry)].map Entry.employeeId) ∧
    ((performLottery rand0 [⟨"E1", "男", "R1"⟩, ⟨"E2", "女", "R2"⟩]).map
      Entry.employeeId).Nodup :=
  claim_C3_employee_ids rand0 [⟨"E1", "男", "R1"⟩, ⟨"E2", "女", "R2"⟩] (by decide)


/-- Flattened slot contents of the bucket list. -/
def joinSlots (gs : List (String × List SlotInfo)) : List SlotInfo :=
  (gs.map Prod.snd).flatten

/-- Slot record built from one indexed room label. -/
def slotOf (p : Nat × String) : SlotInfo :=
  ⟨p.2, (parseRoomNumber p.2).bedroom, p.1⟩

theorem joinSlots_addToGroups (gs : List (String × List SlotInfo))
    (key : String) (s : SlotInfo) :
    (joinSlots (addToGroups gs key s)).Perm (s :: joinSlots gs) := by
  induction gs with
  | nil => simp [addToGroups, joinSlots]
  | cons b rest ih =>
    obtain ⟨k, l⟩ := b
    by_cases hk : k = key
    · simp only [addToGroups, if_pos hk, joinSlots, List.map_cons,
        List.flatten_cons]
      have h1 : (l ++ [s]) ++ ((rest.map Prod.snd).flatten) =
          l ++ (s :: (rest.map Prod.snd).flatten) := by
        simp
      rw [h1]
      exact List.perm_middle
    · simp only [addToGroups, if_neg hk, joinSlots, List.map_cons,
        List.flatten_cons]
      refine ((List.Perm.append_left l ih).trans ?_)
      exact List.perm_middle

theorem joinSlots_foldl (l : List (Nat × String))
    (gs0 : List (String × List SlotInfo)) :
    (joinSlots (l.foldl (fun gs p =>
        addToGroups gs (parseRoomNumber p.2).baseRoom (slotOf p)) gs0)).Perm
      (joinSlots gs0 ++ l.map slotOf) := by
  induction l generalizing gs0 with
  | nil => simp
  | cons p l ih =>
    simp only [List.foldl_cons, List.map_cons]
    refine (ih _).trans ?_
    have h1 := List.Perm.append_right (l.map slotOf)
      (joinSlots_addToGroups gs0 (parseRoomNumber p.2).baseRoom (slotOf p))
    refine h1.trans ?_
    exact List.perm_middle.symm

theorem joinSlots_buildRoomGroups (rooms : List String) :
    (joinSlots (buildRoomGroups rooms)).Perm (rooms.enum.map slotOf) := by
  have h := joinSlots_foldl rooms.enum []
  simp only [joinSlots, List.map_nil, List.flatten_nil, List.nil_append] at h
  exact h

theorem addToGroups_nonempty (gs : List (String × List SlotInfo))
    (key : String) (s : SlotInfo) (h : ∀ b ∈ gs, b.2 ≠ []) :
    ∀ b ∈ addToGroups gs key s, b.2 ≠ [] := by
  induction gs with
  | nil =>
    intro b hb
    simp only [addToGroups, List.mem_singleton] at hb
    subst hb
    simp
  | cons b0 rest ih =>
    obtain ⟨k, l⟩ := b0
    by_cases hk : k = key
    · intro b hb
      simp only [addToGroups, if_pos hk, List.mem_cons] at hb
      rcases hb with hb | hb
      · subst hb; simp
      · exact h b (List.mem_cons_of_mem _ hb)
    · intro b hb
      simp only [addToGroups, if_neg hk, List.mem_cons] at hb
      rcases hb with hb | hb
      · subst hb
        exact h (k, l) (List.mem_cons_self _ _)
      · exact ih (fun b2 hb2 => h b2 (List.mem_cons_of_mem _ hb2)) b hb

theorem buildRoomGroups_nonempty (rooms : List String) :
    ∀ b ∈ buildRoomGroups rooms, b.2 ≠ [] := by
  suffices hgen : ∀ (l : List (Nat × String)) (gs0 : List (String × List SlotInfo)),
      (∀ b ∈ gs0, b.2 ≠ []) →
      ∀ b ∈ l.foldl (fun gs p =>
        addToGroups gs (parseRoomNumber p.2).baseRoom (slotOf p)) gs0, b.2 ≠ [] by
    exact hgen rooms.enum [] (by simp)
  intro l
  induction l with
  | nil => intro gs0 h0 b hb; exact h0 b hb
  | cons p l ih =>
    intro gs0 h0 b hb
    exact ih _ (addToGroups_nonempty gs0 _ _ h0) b hb

theorem splitRooms_perm (gs : List (String × List SlotInfo))
    (h : ∀ b ∈ gs, b.2 ≠ []) :
    ((splitRooms gs).1.flatten ++ (splitRooms gs).2).Perm (joinSlots gs) := by
  induction gs with
  | nil => simp [splitRooms, joinSlots]
  | cons b rest ih =>
    obtain ⟨k, l⟩ := b
    have hl : l ≠ [] := h (k, l) (List.mem_cons_self _ _)
    have hrest : ∀ b2 ∈ rest, b2.2 ≠ [] :=
      fun b2 hb2 => h b2 (List.mem_cons_of_mem _ hb2)
    have hjoin : joinSlots ((k, l) :: rest) = l ++ joinSlots rest := by
      simp [joinSlots]
    by_cases h2 : 2 ≤ l.length
    · simp only [splitRooms, if_pos h2, List.flatten_cons, hjoin]
      rw [List.append_assoc]
      exact List.Perm.append_left l (ih hrest)
    · obtain ⟨s, l2, rfl⟩ : ∃ s l2, l = s :: l2 := by
        cases l with
        | nil => exact absurd rfl hl
        | cons s l2 => exact ⟨s, l2, rfl⟩
      have hl2 : l2 = [] := by
        cases l2 with
        | nil => rfl
        | cons x xs => exact absurd (by simp) h2
      subst hl2
      simp only [splitRooms, if_neg h2, hjoin]
      refine List.perm_middle.trans ?_
      exact (ih hrest).cons s


/-- Multiset of the room labels currently written into the result. -/
def roomsOf (res : List (Option Entry)) : Multiset String :=
  (entriesOf res).map Entry.roomNumber

theorem roomsOf_set_le (res : List (Option Entry)) (i : Nat) (a : Entry) :
    roomsOf (res.set i (some a)) ≤ a.roomNumber ::ₘ roomsOf res := by
  simpa [roomsOf] using
    Multiset.map_le_map (f := Entry.roomNumber) (entriesOf_set_le res i a)

theorem assignGroup_rooms_le (g : List SlotInfo) (pool : List Emp)
    (res : List (Option Entry)) :
    roomsOf (assignGroup pool g res).2 ≤
      roomsOf res + ↑(g.map SlotInfo.fullRoom) := by
  induction g generalizing pool res with
  | nil => simp [assignGroup]
  | cons s grp ih =>
    cases pool with
    | nil =>
      simp only [assignGroup]
      exact Multiset.le_add_right _ _
    | cons e pool =>
      simp only [assignGroup]
      refine (ih pool _).trans ?_
      have h2 : roomsOf (res.set s.originalIndex
          (some ⟨e.employeeId, e.gender, s.fullRoom⟩)) ≤
          s.fullRoom ::ₘ roomsOf res :=
        roomsOf_set_le res s.originalIndex ⟨e.employeeId, e.gender, s.fullRoom⟩
      refine (add_le_add_right h2 _).trans (le_of_eq ?_)
      rw [Multiset.cons_add, List.map_cons]
      rw [← Multiset.cons_coe, Multiset.add_cons]

theorem processShared_rooms_le (coin : Nat → Bool) (gs : List (List SlotInfo))
    (st : SharedState) :
    roomsOf (processShared coin gs st).result +
      ↑((processShared coin gs st).overflow.map SlotInfo.fullRoom) ≤
    roomsOf st.result + ↑(st.overflow.map SlotInfo.fullRoom) +
      ↑((gs.flatten).map SlotInfo.fullRoom) := by
  induction gs generalizing st with
  | nil => simp [processShared]
  | cons g gs ih =>
    have hflat : (↑(((g :: gs).flatten).map SlotInfo.fullRoom) :
        Multiset String) =
        ↑(g.map SlotInfo.fullRoom) + ↑((gs.flatten).map SlotInfo.fullRoom) := by
      rw [List.flatten_cons, List.map_append]
      rfl
    simp only [processShared]
    split
    · split
      · split
        all_goals
          refine (ih _).trans ?_
          rw [hflat]
          refine le_of_le_of_eq (add_le_add_right (add_le_add_right
            (assignGroup_rooms_le g _ st.result) _) _) ?_
          abel
      · refine (ih _).trans ?_
        rw [hflat]
        refine le_of_le_of_eq (add_le_add_right (add_le_add_right
          (assignGroup_rooms_le g _ st.result) _) _) ?_
        abel
    · split
      · refine (ih _).trans ?_
        rw [hflat]
        refine le_of_le_of_eq (add_le_add_right (add_le_add_right
          (assignGroup_rooms_le g _ st.result) _) _) ?_
        abel
      · refine (ih _).trans (le_of_eq ?_)
        rw [hflat]
        show roomsOf st.result + ↑((st.overflow ++ g).map SlotInfo.fullRoom) +
            ↑((gs.flatten).map SlotInfo.fullRoom) = _
        rw [List.map_append]
        show roomsOf st.result +
            (↑(st.overflow.map SlotInfo.fullRoom) + ↑(g.map SlotInfo.fullRoom)) +
            ↑((gs.flatten).map SlotInfo.fullRoom) = _
        abel

theorem processSingles_rooms_le (ss : List SlotInfo) (pool : List Emp)
    (res : List (Option Entry)) :
    roomsOf (processSingles ss pool res) ≤
      roomsOf res + ↑(ss.map SlotInfo.fullRoom) := by
  induction ss generalizing pool res with
  | nil =>
    simp only [processSingles]
    exact Multiset.le_add_right _ _
  | cons s ss ih =>
    cases pool with
    | nil =>
      simp only [processSingles]
      refine (ih [] res).trans ?_
      refine add_le_add_left ?_ _
      rw [List.map_cons, ← Multiset.cons_coe]
      exact Multiset.le_cons_self _ _
    | cons e pool =>
      simp only [processSingles]
      refine (ih pool _).trans ?_
      have h2 : roomsOf (res.set s.originalIndex
          (some ⟨e.employeeId, e.gender, s.fullRoom⟩)) ≤
          s.fullRoom ::ₘ roomsOf res :=
        roomsOf_set_le res s.originalIndex ⟨e.employeeId, e.gender, s.fullRoom⟩
      refine (add_le_add_right h2 _).trans (le_of_eq ?_)
      rw [Multiset.cons_add, List.map_cons]
      rw [← Multiset.cons_coe, Multiset.add_cons]

theorem slots_fullRoom_perm (rooms : List String) :
    (((splitRooms (buildRoomGroups rooms)).1.flatten ++
        (splitRooms (buildRoomGroups rooms)).2).map SlotInfo.fullRoom).Perm
      rooms := by
  have h1 := splitRooms_perm (buildRoomGroups rooms)
    (buildRoomGroups_nonempty rooms)
  have h2 := joinSlots_buildRoomGroups rooms
  have h3 := (h1.trans h2).map SlotInfo.fullRoom
  refine h3.trans (List.Perm.of_eq ?_)
  rw [List.map_map]
  have h4 : (SlotInfo.fullRoom ∘ slotOf) = Prod.snd := funext (fun p => rfl)
  rw [h4, List.enum_map_snd]

theorem performLottery_rooms_le (rnd : Rand) (data : List Entry) :
    (↑((performLottery rnd data).map Entry.roomNumber) : Multiset String) ≤
      ↑(data.map Entry.roomNumber) := by
  have hperm : ((performLottery rnd data).map Entry.roomNumber).Perm
      (((processSingles (allSingleSlots rnd data) (remainingPool rnd data)
        (sharedPhase rnd data).1.result).filterMap id).map Entry.roomNumber) :=
    (shuffleArray_perm rnd.rd _).map Entry.roomNumber
  rw [Multiset.coe_eq_coe.2 hperm]
  have h0 : (↑(((processSingles (allSingleSlots rnd data) (remainingPool rnd data)
      (sharedPhase rnd data).1.result).filterMap id).map Entry.roomNumber) :
      Multiset String) =
      roomsOf (processSingles (allSingleSlots rnd data) (remainingPool rnd data)
        (sharedPhase rnd data).1.result) := rfl
  rw [h0]
  refine (processSingles_rooms_le _ _ _).trans ?_
  have h1 : (↑((allSingleSlots rnd data).map SlotInfo.fullRoom) :
      Multiset String) =
      ↑(((splitRooms (buildRoomGroups (data.map Entry.roomNumber))).2 ++
        (sharedPhase rnd data).1.overflow).map SlotInfo.fullRoom) := by
    refine Multiset.coe_eq_coe.2 ?_
    exact ((shuffleArray_perm rnd.ra _).map SlotInfo.fullRoom)
  rw [h1, List.map_append]
  have h2 := processShared_rooms_le rnd.coin
    (shuffleArray rnd.rs (splitRooms (buildRoomGroups
      (data.map Entry.roomNumber))).1)
    ⟨shuffleArray rnd.rm (genderPools data).1,
     shuffleArray rnd.rf (genderPools data).2,
     List.replicate data.length none, [], 0⟩
  have h3 : roomsOf (List.replicate data.length (none : Option Entry)) = 0 := by
    simp [roomsOf, entriesOf, replicate_none_filterMap]
  rw [h3] at h2
  simp only [List.map_nil] at h2
  have h4 : roomsOf (sharedPhase rnd data).1.result +
      ↑(((sharedPhase rnd data).1.overflow).map SlotInfo.fullRoom) ≤
      ↑(((shuffleArray rnd.rs (splitRooms (buildRoomGroups
        (data.map Entry.roomNumber))).1).flatten).map SlotInfo.fullRoom) := by
    refine le_trans ?_ (by simpa using h2)
    exact le_refl _
  have h5 : (↑(((shuffleArray rnd.rs (splitRooms (buildRoomGroups
      (data.map Entry.roomNumber))).1).flatten).map SlotInfo.fullRoom) :
      Multiset String) =
      ↑((((splitRooms (buildRoomGroups
        (data.map Entry.roomNumber))).1).flatten).map SlotInfo.fullRoom) := by
    refine Multiset.coe_eq_coe.2 ?_
    exact ((shuffleArray_perm rnd.rs _).flatten.map SlotInfo.fullRoom)
  rw [h5] at h4
  have h6 : (↑(data.map Entry.roomNumber) : Multiset String) =
      ↑((((splitRooms (buildRoomGroups (data.map Entry.roomNumber))).1.flatten ++
        (splitRooms (buildRoomGroups (data.map Entry.roomNumber))).2).map
          SlotInfo.fullRoom)) :=
    (Multiset.coe_eq_coe.2 (slots_fullRoom_perm (data.map Entry.roomNumber))).symm
  rw [h6, List.map_append]
  have h7 := add_le_add_left h4
    (↑(((splitRooms (buildRoomGroups (data.map Entry.roomNumber))).2).map
      SlotInfo.fullRoom) : Multiset String)
  have hsplit1 : (↑(List.map SlotInfo.fullRoom (splitRooms (buildRoomGroups
      (List.map Entry.roomNumber data))).2 ++
      List.map SlotInfo.fullRoom (sharedPhase rnd data).1.overflow) :
      Multiset String) =
      ↑(List.map SlotInfo.fullRoom (splitRooms (buildRoomGroups
        (List.map Entry.roomNumber data))).2) +
      ↑(List.map SlotInfo.fullRoom (sharedPhase rnd data).1.overflow) := rfl
  have hsplit2 : (↑(List.map SlotInfo.fullRoom (splitRooms (buildRoomGroups
      (List.map Entry.roomNumber data))).1.flatten ++
      List.map SlotInfo.fullRoom (splitRooms (buildRoomGroups
        (List.map Entry.roomNumber data))).2) : Multiset String) =
      ↑(List.map SlotInfo.fullRoom (splitRooms (buildRoomGroups
        (List.map Entry.roomNumber data))).1.flatten) +
      ↑(List.map SlotInfo.fullRoom (splitRooms (buildRoomGroups
        (List.map Entry.roomNumber data))).2) := rfl
  rw [hsplit1, hsplit2]
  refine le_trans (le_of_eq (add_left_comm _ _ _)) (h7.trans (le_of_eq ?_))
  exact add_comm _ _


/-- Counterexample to C4 as universally stated: when the input contains
the same room label twice, the two labels form one shared group, overflow
into the single-slot phase, and both get filled — the label then appears
twice in the result. -/
theorem claim_C4_counterexample :
    (performLottery rand0 [⟨"E1", "男", "R1"⟩, ⟨"E2", "女", "R1"⟩]).map
        Entry.roomNumber = ["R1", "R1"] ∧
    ¬ ((performLottery rand0 [⟨"E1", "男", "R1"⟩, ⟨"E2", "女", "R1"⟩]).map
        Entry.roomNumber).Nodup := by
  decide

theorem nodup_map_inj {β : Type} (f : Entry → β) (l : List Entry)
    (h : (l.map f).Nodup) :
    ∀ x ∈ l, ∀ y ∈ l, f x = f y → x = y := by
  intro x hx y hy hf
  exact List.inj_on_of_nodup_map h hx hy hf

/-- Amended C4: every room label in the result comes from the input, and
when the input room labels are pairwise distinct, each appears at most
once in the result.  (With duplicate input labels the code can emit the
same label several times, as the counterexample shows.) -/
theorem claim_C4_room_slots (rnd : Rand) (data : List Entry) :
    (∀ a ∈ performLottery rnd data, a.roomNumber ∈ data.map Entry.roomNumber) ∧
    ((data.map Entry.roomNumber).Nodup →
      ((performLottery rnd data).map Entry.roomNumber).Nodup) := by
  have hle := performLottery_rooms_le rnd data
  constructor
  · intro a ha
    have h1 : a.roomNumber ∈ (performLottery rnd data).map Entry.roomNumber :=
      List.mem_map_of_mem Entry.roomNumber ha
    have h2 : a.roomNumber ∈
        (↑((performLottery rnd data).map Entry.roomNumber) : Multiset String) := by
      simpa using h1
    simpa using Multiset.mem_of_le hle h2
  · intro h
    have h3 : (↑(data.map Entry.roomNumber) : Multiset String).Nodup := by
      simpa using h
    have h4 := Multiset.nodup_of_le hle h3
    simpa using h4

/-- Closed instance of amended C4 on a concrete input with distinct room
labels. -/
theorem claim_C4_room_slots_witness :
    (∀ a ∈ performLottery rand0 [⟨"E1", "男", "R1"⟩, ⟨"E2", "女", "R2"⟩],
      a.roomNumber ∈
        [⟨"E1", "男", "R1"⟩, (⟨"E2", "女", "R2"⟩ : Entry)].map Entry.roomNumber) ∧
    (([⟨"E1", "男", "R1"⟩, (⟨"E2", "女", "R2"⟩ : Entry)].map Entry.roomNumber).Nodup →
      ((performLottery rand0 [⟨"E1", "男", "R1"⟩, ⟨"E2", "女", "R2"⟩]).map
        Entry.roomNumber).Nodup) :=
  claim_C4_room_slots rand0 [⟨"E1", "男", "R1"⟩, ⟨"E2", "女", "R2"⟩]

theorem filter_pair_length_le (l : List Emp) (p q : Emp → Bool)
    (h : ∀ x, ¬(p x = true ∧ q x = true)) :
    (l.filter p).length + (l.filter q).length ≤ l.length := by
  have h1 := Multiset.card_le_card (filter_pair_le l p q h)
  simpa using h1

theorem filter_pair_length_lt (l : List Emp) (p q : Emp → Bool)
    (h : ∀ x, ¬(p x = true ∧ q x = true)) (e : Emp) (he : e ∈ l)
    (hp : p e = false) (hq : q e = false) :
    (l.filter p).length + (l.filter q).length < l.length := by
  induction l with
  | nil => simp at he
  | cons x l ih =>
    rcases List.mem_cons.1 he with hx | hx
    · subst hx
      rw [List.filter_cons_of_neg (by simp [hp]),
        List.filter_cons_of_neg (by simp [hq]), List.length_cons]
      have := filter_pair_length_le l p q h
      omega
    · have hlt := ih hx
      cases hpx : p x with
      | true =>
        have hqx : q x = false := by
          cases hqx2 : q x with
          | false => rfl
          | true => exact absurd ⟨hpx, hqx2⟩ (h x)
        rw [List.filter_cons_of_pos hpx, List.filter_cons_of_neg (by simp [hqx]),
          List.length_cons, List.length_cons]
        omega
      | false =>
        cases hqx : q x with
        | true =>
          rw [List.filter_cons_of_neg (by simp [hpx]),
            List.filter_cons_of_pos hqx, List.length_cons, List.length_cons]
          omega
        | false =>
          rw [List.filter_cons_of_neg (by simp [hpx]),
            List.filter_cons_of_neg (by simp [hqx]), List.length_cons]
          omega

/-- Random source witnessing that a noncanonical-gender entry's room can
go to another employee (single-slot order left unshuffled). -/
def rand1 : Rand := ⟨fun _ => 0, fun _ => 0, fun _ => 0, fun _ => 0,
  fun _ => 1, fun _ => 0, fun _ => false⟩

theorem gender_pair_excl :
    ∀ x : Emp, ¬((x.gender == "男") = true ∧ (x.gender == "女") = true) := by
  intro x hx
  have ha : x.gender = "男" := by simpa using hx.1
  have hb : x.gender = "女" := by simpa using hx.2
  rw [ha] at hb
  exact absurd hb (by decide)

/-- C10: an entry whose gender is neither canonical value lands in neither
pool, so (with the ids distinct) its id never appears in any result and
the result is strictly shorter than the input; its room label still takes
part in grouping and can be assigned to another employee, as the concrete
run in the last conjunct shows. -/
theorem claim_C10_noncanonical_gender (rnd : Rand) (data : List Entry)
    (e : Entry) (he : e ∈ data) (h1 : e.gender ≠ "男") (h2 : e.gender ≠ "女") :
    (performLottery rnd data).length < data.length ∧
    ((data.map Entry.employeeId).Nodup →
      e.employeeId ∉ (performLottery rnd data).map Entry.employeeId) ∧
    performLottery rand1 [⟨"E1", "X", "R1"⟩, ⟨"E2", "男", "R2"⟩] =
      [⟨"E2", "男", "R1"⟩] := by
  have hemp := performLottery_emps_le rnd data
  have hcard := Multiset.card_le_card hemp
  have hme : empOf e ∈ data.map empOf := List.mem_map_of_mem empOf he
  have hpe : (fun x : Emp => x.gender == "男") (empOf e) = false := by
    simp [empOf]
    exact h1
  have hqe : (fun x : Emp => x.gender == "女") (empOf e) = false := by
    simp [empOf]
    exact h2
  have hlt := filter_pair_length_lt (data.map empOf)
    (fun x => x.gender == "男") (fun x => x.gender == "女")
    gender_pair_excl (empOf e) hme hpe hqe
  refine ⟨?_, ?_, by decide⟩
  · have hc1 : Multiset.card
        (↑((performLottery rnd data).map empOf) : Multiset Emp) =
        (performLottery rnd data).length := by
      simp
    have hc2 : Multiset.card
        (↑(genderPools data).1 + ↑(genderPools data).2 : Multiset Emp) =
        ((data.map empOf).filter (fun x => x.gender == "男")).length +
        ((data.map empOf).filter (fun x => x.gender == "女")).length := by
      simp [genderPools]
    rw [hc1, hc2] at hcard
    have hn : (data.map empOf).length = data.length := List.length_map data empOf
    omega
  · intro hnodup hmem
    obtain ⟨a, ha, hid⟩ := List.mem_map.1 hmem
    have ham : empOf a ∈
        (↑((performLottery rnd data).map empOf) : Multiset Emp) := by
      simpa using List.mem_map_of_mem empOf ha
    have ham2 := Multiset.mem_of_le hemp ham
    rw [Multiset.mem_add] at ham2
    have hcanon : ∃ d ∈ data, d.employeeId = a.employeeId ∧
        (d.gender = "男" ∨ d.gender = "女") := by
      rcases ham2 with hin | hin
      · have hin2 : empOf a ∈ (data.map empOf).filter
            (fun x => x.gender == "男") := by simpa [genderPools] using hin
        have hin3 := List.mem_filter.1 hin2
        obtain ⟨d, hd, hde⟩ := List.mem_map.1 hin3.1
        refine ⟨d, hd, ?_, Or.inl ?_⟩
        · have := congrArg Emp.employeeId hde
          simpa [empOf] using this
        · have hg := hin3.2
          rw [← hde] at hg
          simpa [empOf] using hg
      · have hin2 : empOf a ∈ (data.map empOf).filter
            (fun x => x.gender == "女") := by simpa [genderPools] using hin
        have hin3 := List.mem_filter.1 hin2
        obtain ⟨d, hd, hde⟩ := List.mem_map.1 hin3.1
        refine ⟨d, hd, ?_, Or.inr ?_⟩
        · have := congrArg Emp.employeeId hde
          simpa [empOf] using this
        · have hg := hin3.2
          rw [← hde] at hg
          simpa [empOf] using hg
    obtain ⟨d, hd, hdid, hdg⟩ := hcanon
    have hde : d = e := by
      refine nodup_map_inj Entry.employeeId data hnodup d hd e he ?_
      rw [hdid, hid]
    subst hde
    rcases hdg with hg | hg
    · exact h1 hg
    · exact h2 hg

/-- Closed instance of C10: a single noncanonical-gender entry yields an
empty result, strictly shorter than the one-entry input. -/
theorem claim_C10_noncanonical_gender_witness :
    (performLottery rand0 [⟨"E1", "X", "R1"⟩]).length <
      ([⟨"E1", "X", "R1"⟩] : List Entry).length ∧
    ((([⟨"E1", "X", "R1"⟩] : List Entry).map Entry.employeeId).Nodup →
      "E1" ∉ (performLottery rand0 [⟨"E1", "X", "R1"⟩]).map Entry.employeeId) ∧
    performLottery rand1 [⟨"E1", "X", "R1"⟩, ⟨"E2", "男", "R2"⟩] =
      [⟨"E2", "男", "R1"⟩] :=
  claim_C10_noncanonical_gender rand0 [⟨"E1", "X", "R1"⟩] ⟨"E1", "X", "R1"⟩
    (by decide) (by decide) (by decide)


/-- Original indices of a slot list. -/
def idxOf (g : List SlotInfo) : List Nat := g.map SlotInfo.originalIndex

@[simp] theorem idxOf_nil : idxOf [] = [] := rfl

@[simp] theorem idxOf_cons (s : SlotInfo) (g : List SlotInfo) :
    idxOf (s :: g) = s.originalIndex :: idxOf g := rfl

theorem idxOf_append (g1 g2 : List SlotInfo) :
    idxOf (g1 ++ g2) = idxOf g1 ++ idxOf g2 := List.map_append _ g1 g2

theorem mem_idxOf (i : Nat) (g : List SlotInfo) :
    i ∈ idxOf g ↔ ∃ s ∈ g, s.originalIndex = i := by
  simp [idxOf]

theorem assignGroup_frame (g : List SlotInfo) (pool : List Emp)
    (res : List (Option Entry)) (i : Nat) (h : i ∉ idxOf g) :
    (assignGroup pool g res).2[i]? = res[i]? := by
  induction g generalizing pool res with
  | nil => simp only [assignGroup]
  | cons s grp ih =>
    cases pool with
    | nil => rfl
    | cons e pool =>
      simp only [assignGroup]
      simp only [idxOf_cons, List.mem_cons, not_or] at h
      rw [ih pool _ h.2]
      exact List.getElem?_set_ne (fun he => h.1 he.symm)

theorem assignGroup_pool_eq (g : List SlotInfo) (pool : List Emp)
    (res : List (Option Entry)) :
    (assignGroup pool g res).1 = pool.drop g.length := by
  induction g generalizing pool res with
  | nil => simp [assignGroup]
  | cons s grp ih =>
    cases pool with
    | nil => simp [assignGroup]
    | cons e pool =>
      simp only [assignGroup, List.length_cons, List.drop_succ_cons]
      exact ih pool _

theorem assignGroup_length (g : List SlotInfo) (pool : List Emp)
    (res : List (Option Entry)) :
    (assignGroup pool g res).2.length = res.length := by
  induction g generalizing pool res with
  | nil => simp only [assignGroup]
  | cons s grp ih =>
    cases pool with
    | nil => rfl
    | cons e pool =>
      simp only [assignGroup]
      rw [ih pool _, List.length_set]

theorem assignGroup_writes (g : List SlotInfo) (pool : List Emp)
    (res : List (Option Entry)) (gd : String)
    (hpool : g.length ≤ pool.length) (hnd : (idxOf g).Nodup)
    (hb : ∀ s ∈ g, s.originalIndex < res.length)
    (hgd : ∀ e ∈ pool, e.gender = gd) :
    ∀ s ∈ g, ∃ a : Entry,
      (assignGroup pool g res).2[s.originalIndex]? = some (some a) ∧
      a.gender = gd ∧ a.roomNumber = s.fullRoom := by
  induction g generalizing pool res with
  | nil => intro s hs; simp at hs
  | cons s0 grp ih =>
    cases pool with
    | nil => simp at hpool
    | cons e pool =>
      intro s hs
      simp only [assignGroup]
      rcases List.mem_cons.1 hs with rfl | hs2
      · have hnotin : s.originalIndex ∉ idxOf grp := by
          simp only [idxOf_cons] at hnd
          exact (List.nodup_cons.1 hnd).1
        rw [assignGroup_frame grp pool _ _ hnotin]
        refine ⟨⟨e.employeeId, e.gender, s.fullRoom⟩, ?_,
          hgd e (List.mem_cons_self _ _), rfl⟩
        rw [List.getElem?_set_self (hb s (List.mem_cons_self _ _))]
      · refine ih pool _ (by simpa using Nat.le_of_succ_le_succ hpool) ?_ ?_ ?_ s hs2
        · simp only [idxOf_cons] at hnd
          exact (List.nodup_cons.1 hnd).2
        · intro s2 hs2b
          rw [List.length_set]
          exact hb s2 (List.mem_cons_of_mem _ hs2b)
        · intro e2 he2
          exact hgd e2 (List.mem_cons_of_mem _ he2)

theorem processShared_frame (coin : Nat → Bool) (gs : List (List SlotInfo))
    (st : SharedState) (i : Nat) (h : i ∉ idxOf gs.flatten) :
    (processShared coin gs st).result[i]? = st.result[i]? := by
  induction gs generalizing st with
  | nil => rfl
  | cons g gs ih =>
    have hsplit : i ∉ idxOf g ∧ i ∉ idxOf gs.flatten := by
      rw [List.flatten_cons, idxOf_append] at h
      exact ⟨fun hm => h (List.mem_append_left _ hm),
        fun hm => h (List.mem_append_right _ hm)⟩
    simp only [processShared]
    split
    · split
      · split
        all_goals
          rw [ih _ hsplit.2]
          exact assignGroup_frame g _ st.result i hsplit.1
      · rw [ih _ hsplit.2]
        exact assignGroup_frame g _ st.result i hsplit.1
    · split
      · rw [ih _ hsplit.2]
        exact assignGroup_frame g _ st.result i hsplit.1
      · rw [ih _ hsplit.2]

theorem processShared_result_length (coin : Nat → Bool)
    (gs : List (List SlotInfo)) (st : SharedState) :
    (processShared coin gs st).result.length = st.result.length := by
  induction gs generalizing st with
  | nil => rfl
  | cons g gs ih =>
    simp only [processShared]
    split
    · split
      · split
        all_goals rw [ih _]; exact assignGroup_length g _ st.result
      · rw [ih _]; exact assignGroup_length g _ st.result
    · split
      · rw [ih _]; exact assignGroup_length g _ st.result
      · rw [ih _]

theorem processShared_overflow_mem (coin : Nat → Bool)
    (gs : List (List SlotInfo)) (st : SharedState) (s2 : SlotInfo)
    (h : s2 ∈ (processShared coin gs st).overflow) :
    s2 ∈ st.overflow ∨ s2 ∈ gs.flatten := by
  induction gs generalizing st with
  | nil => exact Or.inl h
  | cons g gs ih =>
    rw [List.flatten_cons]
    simp only [processShared] at h
    have hmem : ∀ s3 : SlotInfo, s3 ∈ st.overflow ∨ s3 ∈ gs.flatten →
        s3 ∈ st.overflow ∨ s3 ∈ g ++ gs.flatten := by
      intro s3 h3
      rcases h3 with h3 | h3
      · exact Or.inl h3
      · exact Or.inr (List.mem_append_right _ h3)
    split at h
    · split at h
      · split at h
        all_goals
          have h4 := ih _ h
          exact hmem s2 h4
      · have h4 := ih _ h
        exact hmem s2 h4
    · split at h
      · have h4 := ih _ h
        exact hmem s2 h4
      · have h4 := ih _ h
        have h5 : s2 ∈ st.overflow ++ g ∨ s2 ∈ gs.flatten := h4
        rcases h5 with h2 | h2
        · rcases List.mem_append.1 h2 with h3 | h3
          · exact Or.inl h3
          · exact Or.inr (List.mem_append_left _ h3)
        · exact Or.inr (List.mem_append_right _ h2)

theorem processShared_male_mem (coin : Nat → Bool) (gs : List (List SlotInfo))
    (st : SharedState) (e : Emp) (h : e ∈ (processShared coin gs st).male) :
    e ∈ st.male := by
  induction gs generalizing st with
  | nil => exact h
  | cons g gs ih =>
    simp only [processShared] at h
    split at h
    · split at h
      · split at h
        · have h2 := ih _ h
          have h3 : e ∈ (assignGroup st.male g st.result).1 := h2
          rw [assignGroup_pool_eq] at h3
          exact List.drop_subset _ _ h3
        · have h2 := ih _ h
          exact h2
      · have h2 := ih _ h
        have h3 : e ∈ (assignGroup st.male g st.result).1 := h2
        rw [assignGroup_pool_eq] at h3
        exact List.drop_subset _ _ h3
    · split at h
      · have h2 := ih _ h
        exact h2
      · have h2 := ih _ h
        exact h2

theorem processShared_female_mem (coin : Nat → Bool) (gs : List (List SlotInfo))
    (st : SharedState) (e : Emp) (h : e ∈ (processShared coin gs st).female) :
    e ∈ st.female := by
  induction gs generalizing st with
  | nil => exact h
  | cons g gs ih =>
    simp only [processShared] at h
    split at h
    · split at h
      · split at h
        · have h2 := ih _ h
          exact h2
        · have h2 := ih _ h
          have h3 : e ∈ (assignGroup st.female g st.result).1 := h2
          rw [assignGroup_pool_eq] at h3
          exact List.drop_subset _ _ h3
      · have h2 := ih _ h
        exact h2
    · split at h
      · have h2 := ih _ h
        have h3 : e ∈ (assignGroup st.female g st.result).1 := h2
        rw [assignGroup_pool_eq] at h3
        exact List.drop_subset _ _ h3
      · have h2 := ih _ h
        exact h2




theorem assigned_branch_spec (coin : Nat → Bool) (rest : List (List SlotInfo))
    (st st1 : SharedState) (g0 : List SlotInfo) (pool : List Emp) (gd : String)
    (hres : st1.result = (assignGroup pool g0 st.result).2)
    (hovf : st1.overflow = st.overflow)
    (hlen : g0.length ≤ pool.length)
    (hgd : ∀ e ∈ pool, e.gender = gd)
    (hnd : (idxOf ((g0 :: rest).flatten)).Nodup)
    (hb : ∀ s ∈ (g0 :: rest).flatten, s.originalIndex < st.result.length)
    (hov : ∀ s2 ∈ st.overflow, s2.originalIndex ∉ idxOf ((g0 :: rest).flatten)) :
    ∀ s ∈ g0,
      s.originalIndex ∉ idxOf (processShared coin rest st1).overflow ∧
      ∃ a : Entry,
        (processShared coin rest st1).result[s.originalIndex]? = some (some a) ∧
        a.gender = gd ∧ a.roomNumber = s.fullRoom := by
  have hflat : (g0 :: rest).flatten = g0 ++ rest.flatten := List.flatten_cons
  have hnd2 : ((idxOf g0) ++ (idxOf rest.flatten)).Nodup := by
    rw [hflat, idxOf_append] at hnd
    exact hnd
  obtain ⟨hndg, hndrest, hdisj⟩ := List.nodup_append.1 hnd2
  intro s hs
  have hsimem : s.originalIndex ∈ idxOf g0 := (mem_idxOf _ _).2 ⟨s, hs, rfl⟩
  have hnotrest : s.originalIndex ∉ idxOf rest.flatten := hdisj hsimem
  constructor
  · intro hmemidx
    obtain ⟨s2, hs2mem, hs2eq⟩ := (mem_idxOf _ _).1 hmemidx
    rcases processShared_overflow_mem coin rest st1 s2 hs2mem with h2 | h2
    · rw [hovf] at h2
      apply hov s2 h2
      rw [hflat, idxOf_append]
      refine List.mem_append_left _ ?_
      rw [hs2eq]
      exact hsimem
    · apply hnotrest
      rw [← hs2eq]
      exact (mem_idxOf _ _).2 ⟨s2, h2, rfl⟩
  · rw [processShared_frame coin rest st1 _ hnotrest, hres]
    refine assignGroup_writes g0 pool st.result gd hlen hndg ?_ hgd s hs
    intro s2 hs2
    refine hb s2 ?_
    rw [hflat]
    exact List.mem_append_left _ hs2

theorem processShared_groups_spec (coin : Nat → Bool)
    (gs : List (List SlotInfo)) (st : SharedState)
    (hnd : (idxOf gs.flatten).Nodup)
    (hb : ∀ s ∈ gs.flatten, s.originalIndex < st.result.length)
    (hov : ∀ s2 ∈ st.overflow, s2.originalIndex ∉ idxOf gs.flatten)
    (hm : ∀ e ∈ st.male, e.gender = "男")
    (hf : ∀ e ∈ st.female, e.gender = "女") :
    ∀ g ∈ gs,
      (∀ s ∈ g, s ∈ (processShared coin gs st).overflow ∧
        (processShared coin gs st).result[s.originalIndex]? =
          st.result[s.originalIndex]?) ∨
      (∃ gd, (gd = "男" ∨ gd = "女") ∧ ∀ s ∈ g,
        s.originalIndex ∉ idxOf (processShared coin gs st).overflow ∧
        ∃ a : Entry,
          (processShared coin gs st).result[s.originalIndex]? = some (some a) ∧
          a.gender = gd ∧ a.roomNumber = s.fullRoom) := by
  induction gs generalizing st with
  | nil => intro g hg; simp at hg
  | cons g0 rest ih =>
    have hflat : (g0 :: rest).flatten = g0 ++ rest.flatten := List.flatten_cons
    have hnd2 : ((idxOf g0) ++ (idxOf rest.flatten)).Nodup := by
      rw [hflat, idxOf_append] at hnd
      exact hnd
    obtain ⟨hndg, hndrest, hdisj⟩ := List.nodup_append.1 hnd2
    have hbrest : ∀ s ∈ rest.flatten, s.originalIndex < st.result.length := by
      intro s hs
      refine hb s ?_
      rw [hflat]
      exact List.mem_append_right _ hs
    have hovrest : ∀ s2 ∈ st.overflow, s2.originalIndex ∉ idxOf rest.flatten := by
      intro s2 h2 hmem
      apply hov s2 h2
      rw [hflat, idxOf_append]
      exact List.mem_append_right _ hmem
    intro g hg
    simp only [processShared]
    split
    · rename_i hml
      split
      · rename_i hfl
        split
        · -- both pools suffice and the coin chose the male pool
          rcases List.mem_cons.1 hg with rfl | hgrest
          · refine Or.inr ⟨"男", Or.inl rfl, ?_⟩
            exact assigned_branch_spec coin rest st _ g st.male "男" rfl rfl
              hml hm hnd hb hov
          · have hres1 : ∀ s ∈ g,
                ((assignGroup st.male g0 st.result).2)[s.originalIndex]? =
                  st.result[s.originalIndex]? := by
              intro s hs
              refine assignGroup_frame g0 st.male st.result _ ?_
              intro hmem
              exact hdisj hmem
                ((mem_idxOf _ _).2 ⟨s, List.mem_flatten.2 ⟨g, hgrest, hs⟩, rfl⟩)
            have hb2 : ∀ s ∈ rest.flatten,
                s.originalIndex < (assignGroup st.male g0 st.result).2.length := by
              intro s hs
              rw [assignGroup_length]
              exact hbrest s hs
            have hpool2 : ∀ e ∈ (assignGroup st.male g0 st.result).1,
                e.gender = "男" := by
              intro e he
              rw [assignGroup_pool_eq] at he
              exact hm e (List.drop_subset _ _ he)
            have hih := ih (⟨(assignGroup st.male g0 st.result).1, st.female, (assignGroup st.male g0 st.result).2, st.overflow, st.t + 1⟩ : SharedState) hndrest hb2 hovrest hpool2 hf g hgrest
            rcases hih with hL | hR
            · refine Or.inl ?_
              intro s hs
              have h6 : (processShared coin rest (⟨(assignGroup st.male g0 st.result).1, st.female, (assignGroup st.male g0 st.result).2, st.overflow, st.t + 1⟩ : SharedState)).result[s.originalIndex]? =
                  ((assignGroup st.male g0 st.result).2)[s.originalIndex]? :=
                (hL s hs).2
              exact ⟨(hL s hs).1, h6.trans (hres1 s hs)⟩
            · exact Or.inr hR
        · -- both pools suffice and the coin chose the female pool
          rcases List.mem_cons.1 hg with rfl | hgrest
          · refine Or.inr ⟨"女", Or.inr rfl, ?_⟩
            exact assigned_branch_spec coin rest st _ g st.female "女" rfl rfl
              hfl hf hnd hb hov
          · have hres1 : ∀ s ∈ g,
                ((assignGroup st.female g0 st.result).2)[s.originalIndex]? =
                  st.result[s.originalIndex]? := by
              intro s hs
              refine assignGroup_frame g0 st.female st.result _ ?_
              intro hmem
              exact hdisj hmem
                ((mem_idxOf _ _).2 ⟨s, List.mem_flatten.2 ⟨g, hgrest, hs⟩, rfl⟩)
            have hb2 : ∀ s ∈ rest.flatten,
                s.originalIndex < (assignGroup st.female g0 st.result).2.length := by
              intro s hs
              rw [assignGroup_length]
              exact hbrest s hs
            have hpool2 : ∀ e ∈ (assignGroup st.female g0 st.result).1,
                e.gender = "女" := by
              intro e he
              rw [assignGroup_pool_eq] at he
              exact hf e (List.drop_subset _ _ he)
            have hih := ih (⟨st.male, (assignGroup st.female g0 st.result).1, (assignGroup st.female g0 st.result).2, st.overflow, st.t + 1⟩ : SharedState) hndrest hb2 hovrest hm hpool2 g hgrest
            rcases hih with hL | hR
            · refine Or.inl ?_
              intro s hs
              have h6 : (processShared coin rest (⟨st.male, (assignGroup st.female g0 st.result).1, (assignGroup st.female g0 st.result).2, st.overflow, st.t + 1⟩ : SharedState)).result[s.originalIndex]? =
                  ((assignGroup st.female g0 st.result).2)[s.originalIndex]? :=
                (hL s hs).2
              exact ⟨(hL s hs).1, h6.trans (hres1 s hs)⟩
            · exact Or.inr hR
      · -- only the male pool suffices
        rename_i hfl
        rcases List.mem_cons.1 hg with rfl | hgrest
        · refine Or.inr ⟨"男", Or.inl rfl, ?_⟩
          exact assigned_branch_spec coin rest st _ g st.male "男" rfl rfl
            hml hm hnd hb hov
        · have hres1 : ∀ s ∈ g,
              ((assignGroup st.male g0 st.result).2)[s.originalIndex]? =
                st.result[s.originalIndex]? := by
            intro s hs
            refine assignGroup_frame g0 st.male st.result _ ?_
            intro hmem
            exact hdisj hmem
              ((mem_idxOf _ _).2 ⟨s, List.mem_flatten.2 ⟨g, hgrest, hs⟩, rfl⟩)
          have hb2 : ∀ s ∈ rest.flatten,
              s.originalIndex < (assignGroup st.male g0 st.result).2.length := by
            intro s hs
            rw [assignGroup_length]
            exact hbrest s hs
          have hpool2 : ∀ e ∈ (assignGroup st.male g0 st.result).1,
              e.gender = "男" := by
            intro e he
            rw [assignGroup_pool_eq] at he
            exact hm e (List.drop_subset _ _ he)
          have hih := ih (⟨(assignGroup st.male g0 st.result).1, st.female, (assignGroup st.male g0 st.result).2, st.overflow, st.t⟩ : SharedState) hndrest hb2 hovrest hpool2 hf g hgrest
          rcases hih with hL | hR
          · refine Or.inl ?_
            intro s hs
            have h6 : (processShared coin rest (⟨(assignGroup st.male g0 st.result).1, st.female, (assignGroup st.male g0 st.result).2, st.overflow, st.t⟩ : SharedState)).result[s.originalIndex]? =
                ((assignGroup st.male g0 st.result).2)[s.originalIndex]? :=
              (hL s hs).2
            exact ⟨(hL s hs).1, h6.trans (hres1 s hs)⟩
          · exact Or.inr hR
    · rename_i hml
      split
      · -- only the female pool suffices
        rename_i hfl
        rcases List.mem_cons.1 hg with rfl | hgrest
        · refine Or.inr ⟨"女", Or.inr rfl, ?_⟩
          exact assigned_branch_spec coin rest st _ g st.female "女" rfl rfl
            hfl hf hnd hb hov
        · have hres1 : ∀ s ∈ g,
              ((assignGroup st.female g0 st.result).2)[s.originalIndex]? =
                st.result[s.originalIndex]? := by
            intro s hs
            refine assignGroup_frame g0 st.female st.result _ ?_
            intro hmem
            exact hdisj hmem
              ((mem_idxOf _ _).2 ⟨s, List.mem_flatten.2 ⟨g, hgrest, hs⟩, rfl⟩)
          have hb2 : ∀ s ∈ rest.flatten,
              s.originalIndex < (assignGroup st.female g0 st.result).2.length := by
            intro s hs
            rw [assignGroup_length]
            exact hbrest s hs
          have hpool2 : ∀ e ∈ (assignGroup st.female g0 st.result).1,
              e.gender = "女" := by
            intro e he
            rw [assignGroup_pool_eq] at he
            exact hf e (List.drop_subset _ _ he)
          have hih := ih (⟨st.male, (assignGroup st.female g0 st.result).1, (assignGroup st.female g0 st.result).2, st.overflow, st.t⟩ : SharedState) hndrest hb2 hovrest hm hpool2 g hgrest
          rcases hih with hL | hR
          · refine Or.inl ?_
            intro s hs
            have h6 : (processShared coin rest (⟨st.male, (assignGroup st.female g0 st.result).1, (assignGroup st.female g0 st.result).2, st.overflow, st.t⟩ : SharedState)).result[s.originalIndex]? =
                ((assignGroup st.female g0 st.result).2)[s.originalIndex]? :=
              (hL s hs).2
            exact ⟨(hL s hs).1, h6.trans (hres1 s hs)⟩
          · exact Or.inr hR
      · -- neither pool suffices: the whole group overflows
        rename_i hfl
        rcases List.mem_cons.1 hg with rfl | hgrest
        · refine Or.inl ?_
          intro s hs
          constructor
          · exact mem_processShared_overflow _ _ _ _ (List.mem_append_right _ hs)
          · exact processShared_frame coin rest
              (⟨st.male, st.female, st.result, st.overflow ++ g, st.t⟩ : SharedState) _
              (hdisj ((mem_idxOf _ _).2 ⟨s, hs, rfl⟩))
        · have hov2 : ∀ s2 ∈ st.overflow ++ g0,
              s2.originalIndex ∉ idxOf rest.flatten := by
            intro s2 h2 hmem
            rcases List.mem_append.1 h2 with h4 | h4
            · exact hovrest s2 h4 hmem
            · exact hdisj ((mem_idxOf _ _).2 ⟨s2, h4, rfl⟩) hmem
          have hih := ih (⟨st.male, st.female, st.result, st.overflow ++ g0, st.t⟩ : SharedState) hndrest hbrest hov2 hm hf g hgrest
          rcases hih with hL | hR
          · exact Or.inl hL
          · exact Or.inr hR


theorem processSingles_frame (ss : List SlotInfo) (pool : List Emp)
    (res : List (Option Entry)) (i : Nat) (h : i ∉ idxOf ss) :
    (processSingles ss pool res)[i]? = res[i]? := by
  induction ss generalizing pool res with
  | nil => rfl
  | cons s ss ih =>
    simp only [idxOf_cons, List.mem_cons, not_or] at h
    cases pool with
    | nil =>
      simp only [processSingles]
      exact ih [] res h.2
    | cons e pool =>
      simp only [processSingles]
      rw [ih pool _ h.2]
      exact List.getElem?_set_ne (fun he => h.1 he.symm)

theorem slots_idx_perm (rooms : List String) :
    (idxOf ((splitRooms (buildRoomGroups rooms)).1.flatten ++
      (splitRooms (buildRoomGroups rooms)).2)).Perm
      (List.range rooms.length) := by
  have h1 := splitRooms_perm (buildRoomGroups rooms)
    (buildRoomGroups_nonempty rooms)
  have h2 := joinSlots_buildRoomGroups rooms
  have h3 := (h1.trans h2).map SlotInfo.originalIndex
  refine h3.trans (List.Perm.of_eq ?_)
  rw [List.map_map]
  have h4 : (SlotInfo.originalIndex ∘ slotOf) = Prod.fst := funext (fun p => rfl)
  rw [h4, List.enum_map_fst]

theorem genderPools_male_gender (data : List Entry) :
    ∀ e ∈ (genderPools data).1, e.gender = "男" := by
  intro e he
  have h2 := (List.mem_filter.1 he).2
  simpa using h2

theorem genderPools_female_gender (data : List Entry) :
    ∀ e ∈ (genderPools data).2, e.gender = "女" := by
  intro e he
  have h2 := (List.mem_filter.1 he).2
  simpa using h2

/-- Counterexample to C2 as stated: with one male and one female and a
two-slot shared room, the group overflows and both slots are filled by
different genders — the result contains two entries of different genders
whose room labels share a base room that forms a shared group. -/
theorem claim_C2_counterexample :
    ∃ a ∈ performLottery rand0
      [⟨"E1", "男", "南-16-1-1001-A"⟩, ⟨"E2", "女", "南-16-1-1001-B"⟩],
    ∃ b ∈ performLottery rand0
      [⟨"E1", "男", "南-16-1-1001-A"⟩, ⟨"E2", "女", "南-16-1-1001-B"⟩],
      a.gender ≠ b.gender ∧
      (parseRoomNumber a.roomNumber).baseRoom =
        (parseRoomNumber b.roomNumber).baseRoom ∧
      ∃ g ∈ (splitRooms (buildRoomGroups
          ([⟨"E1", "男", "南-16-1-1001-A"⟩,
            (⟨"E2", "女", "南-16-1-1001-B"⟩ : Entry)].map Entry.roomNumber))).1,
        ∃ s ∈ g, (parseRoomNumber s.fullRoom).baseRoom =
          (parseRoomNumber a.roomNumber).baseRoom := by
  decide

/-- Amended C2: in every run, every shared room group is either entirely
deferred to single-slot treatment (all its slots are moved to the overflow
list) or fully filled from one gender pool — each of its slots receives an
entry, all these entries carry one common gender, and they survive into
the final result.  The original claim's final clause fails only for
deferred groups, whose slots the single-slot phase may fill with mixed
genders. -/
theorem claim_C2_shared_group_integrity (rnd : Rand) (data : List Entry) :
    ∀ g ∈ (splitRooms (buildRoomGroups (data.map Entry.roomNumber))).1,
      (∀ s ∈ g, s ∈ (sharedPhase rnd data).1.overflow) ∨
      (∃ gd, (gd = "男" ∨ gd = "女") ∧ ∀ s ∈ g, ∃ a : Entry,
        (sharedPhase rnd data).1.result[s.originalIndex]? = some (some a) ∧
        a.gender = gd ∧ a.roomNumber = s.fullRoom ∧
        a ∈ performLottery rnd data) := by
  intro g hg
  have hidx := slots_idx_perm (data.map Entry.roomNumber)
  have hidxnodup : (idxOf ((splitRooms (buildRoomGroups
      (data.map Entry.roomNumber))).1.flatten ++
      (splitRooms (buildRoomGroups (data.map Entry.roomNumber))).2)).Nodup := by
    rw [hidx.nodup_iff]
    exact List.nodup_range _
  rw [idxOf_append] at hidxnodup
  obtain ⟨hnd1, hnd2, hdisj12⟩ := List.nodup_append.1 hidxnodup
  have hbound : ∀ s ∈ (splitRooms (buildRoomGroups
      (data.map Entry.roomNumber))).1.flatten ++
      (splitRooms (buildRoomGroups (data.map Entry.roomNumber))).2,
      s.originalIndex < data.length := by
    intro s hs
    have h1 : s.originalIndex ∈ idxOf ((splitRooms (buildRoomGroups
        (data.map Entry.roomNumber))).1.flatten ++
        (splitRooms (buildRoomGroups (data.map Entry.roomNumber))).2) :=
      (mem_idxOf _ _).2 ⟨s, hs, rfl⟩
    have h2 := hidx.mem_iff.1 h1
    rw [List.mem_range, List.length_map] at h2
    exact h2
  have hflatperm : ((shuffleArray rnd.rs (splitRooms (buildRoomGroups
      (data.map Entry.roomNumber))).1).flatten).Perm
      ((splitRooms (buildRoomGroups (data.map Entry.roomNumber))).1.flatten) :=
    (shuffleArray_perm rnd.rs _).flatten
  have hgs : g ∈ shuffleArray rnd.rs (splitRooms (buildRoomGroups
      (data.map Entry.roomNumber))).1 :=
    (shuffleArray_perm rnd.rs _).mem_iff.2 hg
  have hndsh : (idxOf ((shuffleArray rnd.rs (splitRooms (buildRoomGroups
      (data.map Entry.roomNumber))).1).flatten)).Nodup :=
    ((hflatperm.map SlotInfo.originalIndex).nodup_iff).2 hnd1
  have hbsh : ∀ s ∈ (shuffleArray rnd.rs (splitRooms (buildRoomGroups
      (data.map Entry.roomNumber))).1).flatten,
      s.originalIndex <
        (List.replicate data.length (none : Option Entry)).length := by
    intro s hs
    rw [List.length_replicate]
    exact hbound s (List.mem_append_left _ (hflatperm.mem_iff.1 hs))
  have hspec := processShared_groups_spec rnd.coin
    (shuffleArray rnd.rs (splitRooms (buildRoomGroups
      (data.map Entry.roomNumber))).1)
    ⟨shuffleArray rnd.rm (genderPools data).1,
     shuffleArray rnd.rf (genderPools data).2,
     List.replicate data.length none, [], 0⟩
    hndsh hbsh
    (by intro s2 h2 hmem; simp at h2)
    (by intro e he
        exact genderPools_male_gender data e
          ((shuffleArray_perm rnd.rm _).mem_iff.1 he))
    (by intro e he
        exact genderPools_female_gender data e
          ((shuffleArray_perm rnd.rf _).mem_iff.1 he))
    g hgs
  rcases hspec with hL | ⟨gd, hgd, hR⟩
  · exact Or.inl (fun s hs => (hL s hs).1)
  · refine Or.inr ⟨gd, hgd, ?_⟩
    intro s hs
    obtain ⟨hnotov, a, hcell, hag, har⟩ := hR s hs
    refine ⟨a, hcell, hag, har, ?_⟩
    have hsmem : s ∈ (splitRooms (buildRoomGroups
        (data.map Entry.roomNumber))).1.flatten :=
      List.mem_flatten.2 ⟨g, hg, hs⟩
    have hnotsingle : s.originalIndex ∉ idxOf (allSingleSlots rnd data) := by
      intro hmem
      have hperm2 : (idxOf (allSingleSlots rnd data)).Perm
          (idxOf ((splitRooms (buildRoomGroups
            (data.map Entry.roomNumber))).2 ++
            (sharedPhase rnd data).1.overflow)) :=
        (shuffleArray_perm rnd.ra _).map SlotInfo.originalIndex
      have hmem2 := hperm2.mem_iff.1 hmem
      rw [idxOf_append, List.mem_append] at hmem2
      rcases hmem2 with h3 | h3
      · exact hdisj12 ((mem_idxOf _ _).2 ⟨s, hsmem, rfl⟩) h3
      · exact hnotov h3
    have hsingle : (processSingles (allSingleSlots rnd data)
        (remainingPool rnd data)
        (sharedPhase rnd data).1.result)[s.originalIndex]? = some (some a) := by
      rw [processSingles_frame _ _ _ _ hnotsingle]
      exact hcell
    have hmemres : (some a) ∈ processSingles (allSingleSlots rnd data)
        (remainingPool rnd data) (sharedPhase rnd data).1.result :=
      List.getElem?_mem hsingle
    have hmemfm : a ∈ (processSingles (allSingleSlots rnd data)
        (remainingPool rnd data) (sharedPhase rnd data).1.result).filterMap id :=
      List.mem_filterMap.2 ⟨some a, hmemres, rfl⟩
    exact (shuffleArray_perm rnd.rd _).mem_iff.2 hmemfm

/-- Closed instance of amended C2: on the end-to-end spec scenario the
single shared group is fully filled by the male pool. -/
theorem claim_C2_shared_group_integrity_witness :
    (∀ s ∈ [(⟨"南-16-1-1001-A", some "A", 0⟩ : SlotInfo),
        ⟨"南-16-1-1001-B", some "B", 1⟩],
      s ∈ (sharedPhase rand0 [⟨"E1", "男", "南-16-1-1001-A"⟩,
        ⟨"E2", "男", "南-16-1-1001-B"⟩, ⟨"E3", "女", "R2"⟩]).1.overflow) ∨
    (∃ gd, (gd = "男" ∨ gd = "女") ∧
      ∀ s ∈ [(⟨"南-16-1-1001-A", some "A", 0⟩ : SlotInfo),
          ⟨"南-16-1-1001-B", some "B", 1⟩],
        ∃ a : Entry,
          (sharedPhase rand0 [⟨"E1", "男", "南-16-1-1001-A"⟩,
            ⟨"E2", "男", "南-16-1-1001-B"⟩,
            ⟨"E3", "女", "R2"⟩]).1.result[s.originalIndex]? = some (some a) ∧
          a.gender = gd ∧ a.roomNumber = s.fullRoom ∧
          a ∈ performLottery rand0 [⟨"E1", "男", "南-16-1-1001-A"⟩,
            ⟨"E2", "男", "南-16-1-1001-B"⟩, ⟨"E3", "女", "R2"⟩]) :=
  claim_C2_shared_group_integrity rand0
    [⟨"E1", "男", "南-16-1-1001-A"⟩, ⟨"E2", "男", "南-16-1-1001-B"⟩,
     ⟨"E3", "女", "R2"⟩]
    [⟨"南-16-1-1001-A", some "A", 0⟩, ⟨"南-16-1-1001-B", some "B", 1⟩]
    (by decide)


theorem cellSome_set (res : List (Option Entry)) (i j : Nat) (b : Entry)
    (h : ∃ a : Entry, res[i]? = some (some a)) :
    ∃ a : Entry, (res.set j (some b))[i]? = some (some a) := by
  by_cases hij : j = i
  · subst hij
    have hlt : j < res.length := by
      by_contra hnot
      obtain ⟨a, ha⟩ := h
      rw [List.getElem?_eq_none (by omega)] at ha
      cases ha
    exact ⟨b, List.getElem?_set_self hlt⟩
  · obtain ⟨a, ha⟩ := h
    refine ⟨a, ?_⟩
    rw [List.getElem?_set_ne hij]
    exact ha

theorem assignGroup_cellSome (g : List SlotInfo) (pool : List Emp)
    (res : List (Option Entry)) (i : Nat)
    (h : ∃ a : Entry, res[i]? = some (some a)) :
    ∃ a : Entry, (assignGroup pool g res).2[i]? = some (some a) := by
  induction g generalizing pool res with
  | nil => simpa only [assignGroup] using h
  | cons s grp ih =>
    cases pool with
    | nil => simpa only [assignGroup] using h
    | cons e pool =>
      simp only [assignGroup]
      exact ih pool _ (cellSome_set res i s.originalIndex _ h)

theorem processShared_cellSome (coin : Nat → Bool) (gs : List (List SlotInfo))
    (st : SharedState) (i : Nat)
    (h : ∃ a : Entry, st.result[i]? = some (some a)) :
    ∃ a : Entry, (processShared coin gs st).result[i]? = some (some a) := by
  induction gs generalizing st with
  | nil => exact h
  | cons g gs ih =>
    simp only [processShared]
    split
    · split
      · split
        all_goals exact ih _ (assignGroup_cellSome g _ st.result i h)
      · exact ih _ (assignGroup_cellSome g _ st.result i h)
    · split
      · exact ih _ (assignGroup_cellSome g _ st.result i h)
      · exact ih _ h

theorem processSingles_cellSome (ss : List SlotInfo) (pool : List Emp)
    (res : List (Option Entry)) (i : Nat)
    (h : ∃ a : Entry, res[i]? = some (some a)) :
    ∃ a : Entry, (processSingles ss pool res)[i]? = some (some a) := by
  induction ss generalizing pool res with
  | nil => exact h
  | cons s ss ih =>
    cases pool with
    | nil =>
      simp only [processSingles]
      exact ih [] res h
    | cons e pool =>
      simp only [processSingles]
      exact ih pool _ (cellSome_set res i s.originalIndex _ h)

theorem assignGroup_fills (g : List SlotInfo) (pool : List Emp)
    (res : List (Option Entry)) (hlen : g.length ≤ pool.length)
    (hb : ∀ s ∈ g, s.originalIndex < res.length) :
    ∀ s ∈ g, ∃ a : Entry,
      (assignGroup pool g res).2[s.originalIndex]? = some (some a) := by
  induction g generalizing pool res with
  | nil => intro s hs; simp at hs
  | cons s0 grp ih =>
    cases pool with
    | nil => simp at hlen
    | cons e pool =>
      intro s hs
      simp only [assignGroup]
      rcases List.mem_cons.1 hs with rfl | hs2
      · refine assignGroup_cellSome grp pool _ _ ?_
        exact ⟨⟨e.employeeId, e.gender, s.fullRoom⟩,
          by rw [List.getElem?_set_self (hb s (List.mem_cons_self _ _))]⟩
      · refine ih pool _ (by simpa using Nat.le_of_succ_le_succ hlen) ?_ s hs2
        intro s2 hs2b
        rw [List.length_set]
        exact hb s2 (List.mem_cons_of_mem _ hs2b)

theorem processShared_fills (coin : Nat → Bool) (gs : List (List SlotInfo))
    (st : SharedState)
    (hne : ∀ g ∈ gs, g ≠ [])
    (hb : ∀ s ∈ gs.flatten, s.originalIndex < st.result.length)
    (hov : (processShared coin gs st).overflow = st.overflow) :
    ∀ s ∈ gs.flatten, ∃ a : Entry,
      (processShared coin gs st).result[s.originalIndex]? = some (some a) := by
  induction gs generalizing st with
  | nil => intro s hs; simp at hs
  | cons g0 rest ih =>
    have hbg0 : ∀ s ∈ g0, s.originalIndex < st.result.length := by
      intro s hs
      exact hb s (by rw [List.flatten_cons]; exact List.mem_append_left _ hs)
    have hbrest : ∀ s ∈ rest.flatten, s.originalIndex < st.result.length := by
      intro s hs
      exact hb s (by rw [List.flatten_cons]; exact List.mem_append_right _ hs)
    intro s hs
    rw [List.flatten_cons] at hs
    by_cases hml : g0.length ≤ st.male.length
    · by_cases hfl : g0.length ≤ st.female.length
      · cases hcoin : coin st.t with
        | true =>
          have hstep : processShared coin (g0 :: rest) st =
              processShared coin rest (⟨(assignGroup st.male g0 st.result).1, st.female, (assignGroup st.male g0 st.result).2, st.overflow, st.t + 1⟩ : SharedState) := by
            simp only [processShared]
            rw [if_pos hml, if_pos hfl, if_pos hcoin]
          rw [hstep] at hov ⊢
          rcases List.mem_append.1 hs with hsg | hsr
          · refine processShared_cellSome coin rest _ _ ?_
            exact assignGroup_fills g0 _ st.result hml hbg0 s hsg
          · refine ih _ (fun g2 hg2 => hne g2 (List.mem_cons_of_mem _ hg2)) ?_ hov s hsr
            intro s2 hs2
            show s2.originalIndex < (assignGroup _ g0 st.result).2.length
            rw [assignGroup_length]
            exact hbrest s2 hs2
        | false =>
          have hstep : processShared coin (g0 :: rest) st =
              processShared coin rest (⟨st.male, (assignGroup st.female g0 st.result).1, (assignGroup st.female g0 st.result).2, st.overflow, st.t + 1⟩ : SharedState) := by
            simp only [processShared]
            rw [if_pos hml, if_pos hfl, if_neg (by simp [hcoin])]
          rw [hstep] at hov ⊢
          rcases List.mem_append.1 hs with hsg | hsr
          · refine processShared_cellSome coin rest _ _ ?_
            exact assignGroup_fills g0 _ st.result hfl hbg0 s hsg
          · refine ih _ (fun g2 hg2 => hne g2 (List.mem_cons_of_mem _ hg2)) ?_ hov s hsr
            intro s2 hs2
            show s2.originalIndex < (assignGroup _ g0 st.result).2.length
            rw [assignGroup_length]
            exact hbrest s2 hs2
      ·
        have hstep : processShared coin (g0 :: rest) st =
            processShared coin rest (⟨(assignGroup st.male g0 st.result).1, st.female, (assignGroup st.male g0 st.result).2, st.overflow, st.t⟩ : SharedState) := by
          simp only [processShared]
          rw [if_pos hml, if_neg hfl]
        rw [hstep] at hov ⊢
        rcases List.mem_append.1 hs with hsg | hsr
        · refine processShared_cellSome coin rest _ _ ?_
          exact assignGroup_fills g0 _ st.result hml hbg0 s hsg
        · refine ih _ (fun g2 hg2 => hne g2 (List.mem_cons_of_mem _ hg2)) ?_ hov s hsr
          intro s2 hs2
          show s2.originalIndex < (assignGroup _ g0 st.result).2.length
          rw [assignGroup_length]
          exact hbrest s2 hs2
    · by_cases hfl : g0.length ≤ st.female.length
      ·
        have hstep : processShared coin (g0 :: rest) st =
            processShared coin rest (⟨st.male, (assignGroup st.female g0 st.result).1, (assignGroup st.female g0 st.result).2, st.overflow, st.t⟩ : SharedState) := by
          simp only [processShared]
          rw [if_neg hml, if_pos hfl]
        rw [hstep] at hov ⊢
        rcases List.mem_append.1 hs with hsg | hsr
        · refine processShared_cellSome coin rest _ _ ?_
          exact assignGroup_fills g0 _ st.result hfl hbg0 s hsg
        · refine ih _ (fun g2 hg2 => hne g2 (List.mem_cons_of_mem _ hg2)) ?_ hov s hsr
          intro s2 hs2
          show s2.originalIndex < (assignGroup _ g0 st.result).2.length
          rw [assignGroup_length]
          exact hbrest s2 hs2
      · exfalso
        have hstep : processShared coin (g0 :: rest) st =
            processShared coin rest (⟨st.male, st.female, st.result, st.overflow ++ g0, st.t⟩ : SharedState) := by
          simp only [processShared]
          rw [if_neg hml, if_neg hfl]
        rw [hstep] at hov
        obtain ⟨extra, hex⟩ := processShared_overflow_extend coin rest (⟨st.male, st.female, st.result, st.overflow ++ g0, st.t⟩ : SharedState)
        rw [hov] at hex
        have hlen2 := congrArg List.length hex
        simp only [List.length_append] at hlen2
        have hg0 : g0 ≠ [] := hne g0 (List.mem_cons_self _ _)
        have hg0len : 0 < g0.length := List.length_pos.2 hg0
        omega

theorem processShared_pool_count (coin : Nat → Bool) (gs : List (List SlotInfo))
    (st : SharedState)
    (hne : ∀ g ∈ gs, g ≠ [])
    (hov : (processShared coin gs st).overflow = st.overflow) :
    (processShared coin gs st).male.length +
      (processShared coin gs st).female.length + gs.flatten.length =
    st.male.length + st.female.length := by
  induction gs generalizing st with
  | nil => simp [processShared]
  | cons g0 rest ih =>
    have hnerest : ∀ g2 ∈ rest, g2 ≠ [] :=
      fun g2 hg2 => hne g2 (List.mem_cons_of_mem _ hg2)
    rw [List.flatten_cons, List.length_append]
    by_cases hml : g0.length ≤ st.male.length
    · by_cases hfl : g0.length ≤ st.female.length
      · cases hcoin : coin st.t with
        | true =>
          have hstep : processShared coin (g0 :: rest) st =
              processShared coin rest (⟨(assignGroup st.male g0 st.result).1, st.female, (assignGroup st.male g0 st.result).2, st.overflow, st.t + 1⟩ : SharedState) := by
            simp only [processShared]
            rw [if_pos hml, if_pos hfl, if_pos hcoin]
          rw [hstep] at hov ⊢
          have hih := ih (⟨(assignGroup st.male g0 st.result).1, st.female, (assignGroup st.male g0 st.result).2, st.overflow, st.t + 1⟩ : SharedState) hnerest hov
          have hpool : (assignGroup st.male g0 st.result).1.length =
              st.male.length - g0.length := by
            rw [assignGroup_pool_eq, List.length_drop]
          rw [show ((⟨(assignGroup st.male g0 st.result).1, st.female, (assignGroup st.male g0 st.result).2, st.overflow, st.t + 1⟩ : SharedState)).male.length = (assignGroup st.male g0 st.result).1.length from rfl, hpool,
            show ((⟨(assignGroup st.male g0 st.result).1, st.female, (assignGroup st.male g0 st.result).2, st.overflow, st.t + 1⟩ : SharedState)).female.length = st.female.length from rfl] at hih
          omega
        | false =>
          have hstep : processShared coin (g0 :: rest) st =
              processShared coin rest (⟨st.male, (assignGroup st.female g0 st.result).1, (assignGroup st.female g0 st.result).2, st.overflow, st.t + 1⟩ : SharedState) := by
            simp only [processShared]
            rw [if_pos hml, if_pos hfl, if_neg (by simp [hcoin])]
          rw [hstep] at hov ⊢
          have hih := ih (⟨st.male, (assignGroup st.female g0 st.result).1, (assignGroup st.female g0 st.result).2, st.overflow, st.t + 1⟩ : SharedState) hnerest hov
          have hpool : (assignGroup st.female g0 st.result).1.length =
              st.female.length - g0.length := by
            rw [assignGroup_pool_eq, List.length_drop]
          rw [show ((⟨st.male, (assignGroup st.female g0 st.result).1, (assignGroup st.female g0 st.result).2, st.overflow, st.t + 1⟩ : SharedState)).female.length = (assignGroup st.female g0 st.result).1.length from rfl, hpool,
            show ((⟨st.male, (assignGroup st.female g0 st.result).1, (assignGroup st.female g0 st.result).2, st.overflow, st.t + 1⟩ : SharedState)).male.length = st.male.length from rfl] at hih
          omega
      · have hstep : processShared coin (g0 :: rest) st =
            processShared coin rest (⟨(assignGroup st.male g0 st.result).1, st.female, (assignGroup st.male g0 st.result).2, st.overflow, st.t⟩ : SharedState) := by
          simp only [processShared]
          rw [if_pos hml, if_neg hfl]
        rw [hstep] at hov ⊢
        have hih := ih (⟨(assignGroup st.male g0 st.result).1, st.female, (assignGroup st.male g0 st.result).2, st.overflow, st.t⟩ : SharedState) hnerest hov
        have hpool : (assignGroup st.male g0 st.result).1.length =
            st.male.length - g0.length := by
          rw [assignGroup_pool_eq, List.length_drop]
        rw [show ((⟨(assignGroup st.male g0 st.result).1, st.female, (assignGroup st.male g0 st.result).2, st.overflow, st.t⟩ : SharedState)).male.length = (assignGroup st.male g0 st.result).1.length from rfl, hpool,
          show ((⟨(assignGroup st.male g0 st.result).1, st.female, (assignGroup st.male g0 st.result).2, st.overflow, st.t⟩ : SharedState)).female.length = st.female.length from rfl] at hih
        omega
    · by_cases hfl : g0.length ≤ st.female.length
      · have hstep : processShared coin (g0 :: rest) st =
            processShared coin rest (⟨st.male, (assignGroup st.female g0 st.result).1, (assignGroup st.female g0 st.result).2, st.overflow, st.t⟩ : SharedState) := by
          simp only [processShared]
          rw [if_neg hml, if_pos hfl]
        rw [hstep] at hov ⊢
        have hih := ih (⟨st.male, (assignGroup st.female g0 st.result).1, (assignGroup st.female g0 st.result).2, st.overflow, st.t⟩ : SharedState) hnerest hov
        have hpool : (assignGroup st.female g0 st.result).1.length =
            st.female.length - g0.length := by
          rw [assignGroup_pool_eq, List.length_drop]
        rw [show ((⟨st.male, (assignGroup st.female g0 st.result).1, (assignGroup st.female g0 st.result).2, st.overflow, st.t⟩ : SharedState)).female.length = (assignGroup st.female g0 st.result).1.length from rfl, hpool,
          show ((⟨st.male, (assignGroup st.female g0 st.result).1, (assignGroup st.female g0 st.result).2, st.overflow, st.t⟩ : SharedState)).male.length = st.male.length from rfl] at hih
        omega
      · exfalso
        have hstep : processShared coin (g0 :: rest) st =
            processShared coin rest (⟨st.male, st.female, st.result, st.overflow ++ g0, st.t⟩ : SharedState) := by
          simp only [processShared]
          rw [if_neg hml, if_neg hfl]
        rw [hstep] at hov
        obtain ⟨extra, hex⟩ := processShared_overflow_extend coin rest (⟨st.male, st.female, st.result, st.overflow ++ g0, st.t⟩ : SharedState)
        rw [hov] at hex
        have hlen2 := congrArg List.length hex
        simp only [List.length_append] at hlen2
        have hg0 : g0 ≠ [] := hne g0 (List.mem_cons_self _ _)
        have hg0len : 0 < g0.length := List.length_pos.2 hg0
        omega

theorem processSingles_fills (ss : List SlotInfo) (pool : List Emp)
    (res : List (Option Entry)) (hlen : ss.length ≤ pool.length)
    (hb : ∀ s ∈ ss, s.originalIndex < res.length) :
    ∀ s ∈ ss, ∃ a : Entry,
      (processSingles ss pool res)[s.originalIndex]? = some (some a) := by
  induction ss generalizing pool res with
  | nil => intro s hs; simp at hs
  | cons s0 ss ih =>
    cases pool with
    | nil => simp at hlen
    | cons e pool =>
      intro s hs
      simp only [processSingles]
      rcases List.mem_cons.1 hs with rfl | hs2
      · refine processSingles_cellSome ss pool _ _ ?_
        exact ⟨⟨e.employeeId, e.gender, s.fullRoom⟩,
          by rw [List.getElem?_set_self (hb s (List.mem_cons_self _ _))]⟩
      · refine ih pool _ (by simpa using Nat.le_of_succ_le_succ hlen) ?_ s hs2
        intro s2 hs2b
        rw [List.length_set]
        exact hb s2 (List.mem_cons_of_mem _ hs2b)

theorem processSingles_length (ss : List SlotInfo) (pool : List Emp)
    (res : List (Option Entry)) :
    (processSingles ss pool res).length = res.length := by
  induction ss generalizing pool res with
  | nil => rfl
  | cons s ss ih =>
    cases pool with
    | nil =>
      simp only [processSingles]
      exact ih [] res
    | cons e pool =>
      simp only [processSingles]
      rw [ih pool _, List.length_set]

theorem filterMap_length_of_all_some (res : List (Option Entry))
    (h : ∀ i, i < res.length → ∃ a : Entry, res[i]? = some (some a)) :
    (res.filterMap id).length = res.length := by
  induction res with
  | nil => rfl
  | cons o os ih =>
    obtain ⟨a, ha⟩ := h 0 (by simp)
    rw [List.getElem?_cons_zero] at ha
    cases ha
    simp only [List.filterMap_cons, id, List.length_cons]
    rw [ih]
    intro i hi
    have h2 := h (i + 1) (by simpa using Nat.succ_lt_succ hi)
    rw [List.getElem?_cons_succ] at h2
    exact h2

theorem filter_pair_length_eq (l : List Emp) (p q : Emp → Bool)
    (hc : ∀ x ∈ l, p x = true ∨ q x = true)
    (hd : ∀ x, ¬(p x = true ∧ q x = true)) :
    (l.filter p).length + (l.filter q).length = l.length := by
  induction l with
  | nil => rfl
  | cons e l ih =>
    have ihl := ih (fun x hx => hc x (List.mem_cons_of_mem _ hx))
    rcases hc e (List.mem_cons_self _ _) with hp | hq
    · have hqe : q e = false := by
        cases hq2 : q e with
        | false => rfl
        | true => exact absurd ⟨hp, hq2⟩ (hd e)
      rw [List.filter_cons_of_pos hp, List.filter_cons_of_neg (by simp [hqe]),
        List.length_cons, List.length_cons]
      omega
    · cases hp2 : p e with
      | true =>
        have hqe : q e = false := by
          cases hq2 : q e with
          | false => rfl
          | true => exact absurd ⟨hp2, hq2⟩ (hd e)
        rw [List.filter_cons_of_pos hp2, List.filter_cons_of_neg (by simp [hqe]),
          List.length_cons, List.length_cons]
        omega
      | false =>
        rw [List.filter_cons_of_neg (by simp [hp2]), List.filter_cons_of_pos hq,
          List.length_cons, List.length_cons]
        omega

theorem splitRooms_shared_len (gs : List (String × List SlotInfo)) :
    ∀ g ∈ (splitRooms gs).1, 2 ≤ g.length := by
  induction gs with
  | nil => intro g hg; simp [splitRooms] at hg
  | cons b rest ih =>
    obtain ⟨k, l⟩ := b
    intro g hg
    by_cases h2 : 2 ≤ l.length
    · simp only [splitRooms, if_pos h2] at hg
      rcases List.mem_cons.1 hg with rfl | hg2
      · exact h2
      · exact ih g hg2
    · simp only [splitRooms, if_neg h2] at hg
      cases l with
      | nil => exact ih g hg
      | cons s l2 => exact ih g hg


/-- C5: the result never exceeds min(totalEmployees, totalRoomSlots) —
both totals equal the entry count, since each Entry carries one employee
and one room slot — and when every gender is canonical (the Entry data
model of the spec) and no shared group was forced into overflow, the
result length equals the entry count exactly. -/
theorem claim_C5_count_bound (rnd : Rand) (data : List Entry) :
    (performLottery rnd data).length ≤
      min ((data.map Entry.employeeId).length)
        ((data.map Entry.roomNumber).length) ∧
    ((∀ d ∈ data, d.gender = "男" ∨ d.gender = "女") →
      (sharedPhase rnd data).1.overflow = [] →
      (performLottery rnd data).length = data.length) := by
  have hreslen : (sharedPhase rnd data).1.result.length = data.length := by
    show (processShared rnd.coin (shuffleArray rnd.rs (splitRooms (buildRoomGroups (data.map Entry.roomNumber))).1) (⟨shuffleArray rnd.rm (genderPools data).1, shuffleArray rnd.rf (genderPools data).2, List.replicate data.length none, [], 0⟩ : SharedState)).result.length = data.length
    rw [processShared_result_length]
    exact List.length_replicate _ _
  have hlen1 : (performLottery rnd data).length =
      ((processSingles (allSingleSlots rnd data) (remainingPool rnd data)
        (sharedPhase rnd data).1.result).filterMap id).length :=
    shuffleArray_length rnd.rd _
  constructor
  · rw [hlen1, List.length_map, List.length_map, Nat.min_self]
    have h2 := List.length_filterMap_le id (processSingles (allSingleSlots rnd data)
      (remainingPool rnd data) (sharedPhase rnd data).1.result)
    have h3 : (processSingles (allSingleSlots rnd data) (remainingPool rnd data)
        (sharedPhase rnd data).1.result).length = data.length := by
      rw [processSingles_length]
      exact hreslen
    omega
  · intro hgender hov
    have hov0 : (processShared rnd.coin (shuffleArray rnd.rs (splitRooms (buildRoomGroups (data.map Entry.roomNumber))).1) (⟨shuffleArray rnd.rm (genderPools data).1, shuffleArray rnd.rf (genderPools data).2, List.replicate data.length none, [], 0⟩ : SharedState)).overflow =
        ((⟨shuffleArray rnd.rm (genderPools data).1, shuffleArray rnd.rf (genderPools data).2, List.replicate data.length none, [], 0⟩ : SharedState)).overflow := hov
    have hne : ∀ g ∈ (shuffleArray rnd.rs (splitRooms (buildRoomGroups (data.map Entry.roomNumber))).1), g ≠ [] := by
      intro g hg hnil
      have h2 := splitRooms_shared_len (buildRoomGroups (data.map Entry.roomNumber))
        g ((shuffleArray_perm rnd.rs _).mem_iff.1 hg)
      rw [hnil] at h2
      simp at h2
    have hidx := slots_idx_perm (data.map Entry.roomNumber)
    have hbound : ∀ s ∈ (splitRooms (buildRoomGroups (data.map Entry.roomNumber))).1.flatten ++ (splitRooms (buildRoomGroups (data.map Entry.roomNumber))).2,
        s.originalIndex < data.length := by
      intro s hs
      have h1 : s.originalIndex ∈ idxOf ((splitRooms (buildRoomGroups (data.map Entry.roomNumber))).1.flatten ++ (splitRooms (buildRoomGroups (data.map Entry.roomNumber))).2) :=
        (mem_idxOf _ _).2 ⟨s, hs, rfl⟩
      have h2 := hidx.mem_iff.1 h1
      rw [List.mem_range, List.length_map] at h2
      exact h2
    have hflatperm : ((shuffleArray rnd.rs (splitRooms (buildRoomGroups (data.map Entry.roomNumber))).1).flatten).Perm ((splitRooms (buildRoomGroups (data.map Entry.roomNumber))).1.flatten) :=
      (shuffleArray_perm rnd.rs _).flatten
    have hbsh : ∀ s ∈ (shuffleArray rnd.rs (splitRooms (buildRoomGroups (data.map Entry.roomNumber))).1).flatten,
        s.originalIndex < ((⟨shuffleArray rnd.rm (genderPools data).1, shuffleArray rnd.rf (genderPools data).2, List.replicate data.length none, [], 0⟩ : SharedState)).result.length := by
      intro s hs
      show s.originalIndex < (List.replicate data.length (none : Option Entry)).length
      rw [List.length_replicate]
      exact hbound s (List.mem_append_left _ (hflatperm.mem_iff.1 hs))
    have hfillsShared := processShared_fills rnd.coin (shuffleArray rnd.rs (splitRooms (buildRoomGroups (data.map Entry.roomNumber))).1) (⟨shuffleArray rnd.rm (genderPools data).1, shuffleArray rnd.rf (genderPools data).2, List.replicate data.length none, [], 0⟩ : SharedState) hne hbsh hov0
    have hcount := processShared_pool_count rnd.coin (shuffleArray rnd.rs (splitRooms (buildRoomGroups (data.map Entry.roomNumber))).1) (⟨shuffleArray rnd.rm (genderPools data).1, shuffleArray rnd.rf (genderPools data).2, List.replicate data.length none, [], 0⟩ : SharedState) hne hov0
    have hp12 : (genderPools data).1.length + (genderPools data).2.length =
        data.length := by
      have hcover : ∀ x ∈ data.map empOf,
          (fun e : Emp => e.gender == "男") x = true ∨
          (fun e : Emp => e.gender == "女") x = true := by
        intro x hx
        obtain ⟨d, hd, rfl⟩ := List.mem_map.1 hx
        rcases hgender d hd with h | h
        · exact Or.inl (by simp [empOf, h])
        · exact Or.inr (by simp [empOf, h])
      have h2 := filter_pair_length_eq (data.map empOf)
        (fun e => e.gender == "男") (fun e => e.gender == "女")
        hcover gender_pair_excl
      rw [List.length_map] at h2
      exact h2
    have hslotlen : ((splitRooms (buildRoomGroups (data.map Entry.roomNumber))).1.flatten).length + ((splitRooms (buildRoomGroups (data.map Entry.roomNumber))).2).length = data.length := by
      have h2 := ((splitRooms_perm (buildRoomGroups (data.map Entry.roomNumber))
        (buildRoomGroups_nonempty _)).trans
        (joinSlots_buildRoomGroups _)).length_eq
      rw [List.length_append, List.length_map, List.enum_length,
        List.length_map] at h2
      exact h2
    have hshlen : ((shuffleArray rnd.rs (splitRooms (buildRoomGroups (data.map Entry.roomNumber))).1).flatten).length = ((splitRooms (buildRoomGroups (data.map Entry.roomNumber))).1.flatten).length :=
      hflatperm.length_eq
    have hm0 : ((⟨shuffleArray rnd.rm (genderPools data).1, shuffleArray rnd.rf (genderPools data).2, List.replicate data.length none, [], 0⟩ : SharedState)).male.length = (genderPools data).1.length :=
      shuffleArray_length rnd.rm _
    have hf0 : ((⟨shuffleArray rnd.rm (genderPools data).1, shuffleArray rnd.rf (genderPools data).2, List.replicate data.length none, [], 0⟩ : SharedState)).female.length = (genderPools data).2.length :=
      shuffleArray_length rnd.rf _
    have hasperm : (allSingleSlots rnd data).Perm ((splitRooms (buildRoomGroups (data.map Entry.roomNumber))).2) := by
      have h2 : (splitRooms (buildRoomGroups (data.map Entry.roomNumber))).2 ++ (sharedPhase rnd data).1.overflow = (splitRooms (buildRoomGroups (data.map Entry.roomNumber))).2 := by
        rw [hov, List.append_nil]
      exact (shuffleArray_perm rnd.ra
        ((splitRooms (buildRoomGroups (data.map Entry.roomNumber))).2 ++ (sharedPhase rnd data).1.overflow)).trans (List.Perm.of_eq h2)
    have hremlen : (remainingPool rnd data).length = ((splitRooms (buildRoomGroups (data.map Entry.roomNumber))).2).length := by
      have h2 : (remainingPool rnd data).length =
          (sharedPhase rnd data).1.male.length +
          (sharedPhase rnd data).1.female.length := by
        show (shuffleArray rnd.rr ((sharedPhase rnd data).1.male ++
          (sharedPhase rnd data).1.female)).length = _
        rw [shuffleArray_length, List.length_append]
      rw [h2]
      have h4 : (sharedPhase rnd data).1.male.length +
          (sharedPhase rnd data).1.female.length + ((shuffleArray rnd.rs (splitRooms (buildRoomGroups (data.map Entry.roomNumber))).1).flatten).length =
          ((⟨shuffleArray rnd.rm (genderPools data).1, shuffleArray rnd.rf (genderPools data).2, List.replicate data.length none, [], 0⟩ : SharedState)).male.length + ((⟨shuffleArray rnd.rm (genderPools data).1, shuffleArray rnd.rf (genderPools data).2, List.replicate data.length none, [], 0⟩ : SharedState)).female.length := hcount
      rw [hm0, hf0] at h4
      omega
    have haslen : (allSingleSlots rnd data).length = ((splitRooms (buildRoomGroups (data.map Entry.roomNumber))).2).length :=
      hasperm.length_eq
    have hfillsSingles := processSingles_fills (allSingleSlots rnd data)
      (remainingPool rnd data) (sharedPhase rnd data).1.result
      (by omega)
      (by intro s hs
          rw [hreslen]
          exact hbound s (List.mem_append_right _ (hasperm.mem_iff.1 hs)))
    have hall : ∀ i, i < (processSingles (allSingleSlots rnd data)
        (remainingPool rnd data) (sharedPhase rnd data).1.result).length →
        ∃ a : Entry, (processSingles (allSingleSlots rnd data)
          (remainingPool rnd data)
          (sharedPhase rnd data).1.result)[i]? = some (some a) := by
      intro i hi
      rw [processSingles_length, hreslen] at hi
      have hir : i ∈ List.range (data.map Entry.roomNumber).length := by
        rw [List.mem_range, List.length_map]
        exact hi
      obtain ⟨s, hsmem, hsidx⟩ := (mem_idxOf _ _).1 (hidx.mem_iff.2 hir)
      rcases List.mem_append.1 hsmem with h1 | h2
      · have hsm : s ∈ (shuffleArray rnd.rs (splitRooms (buildRoomGroups (data.map Entry.roomNumber))).1).flatten := hflatperm.mem_iff.2 h1
        have hcell := hfillsShared s hsm
        rw [hsidx] at hcell
        exact processSingles_cellSome _ _ _ i hcell
      · have hcell := hfillsSingles s (hasperm.mem_iff.2 h2)
        rw [hsidx] at hcell
        exact hcell
    rw [hlen1, filterMap_length_of_all_some _ hall, processSingles_length]
    exact hreslen

/-- Closed instance of C5: two entries of opposite genders in two distinct
single rooms give a result of length exactly two. -/
theorem claim_C5_count_bound_witness :
    (performLottery rand0 [⟨"E1", "男", "R1"⟩, ⟨"E2", "女", "R2"⟩]).length ≤
      min (([⟨"E1", "男", "R1"⟩, (⟨"E2", "女", "R2"⟩ : Entry)].map
        Entry.employeeId).length)
        (([⟨"E1", "男", "R1"⟩, (⟨"E2", "女", "R2"⟩ : Entry)].map
          Entry.roomNumber).length) ∧
    (performLottery rand0 [⟨"E1", "男", "R1"⟩, ⟨"E2", "女", "R2"⟩]).length =
      ([⟨"E1", "男", "R1"⟩, (⟨"E2", "女", "R2"⟩ : Entry)] : List Entry).length :=
  ⟨(claim_C5_count_bound rand0 [⟨"E1", "男", "R1"⟩, ⟨"E2", "女", "R2"⟩]).1,
   (claim_C5_count_bound rand0 [⟨"E1", "男", "R1"⟩, ⟨"E2", "女", "R2"⟩]).2
     (by decide) (by decide)⟩

end Yaohao
